import Mathlib

/-!
# Verification of the pai-slack-bridge conversation stream orchestrator

Shallow embedding of the core of the bridge:

* `src/src/services/session.ts` — thread → session registry
  (`getOrCreateSession`, `cleanupOldSessions`);
* `src/docs/DESK_ROUTING.md` / `src/lib/markdown-to-slack.ts` — `splitForSlack`;
* `src/src/services/slack.ts` — the debounced `MessageUpdater`;
* `src/src/services/claude.ts` — the line-framed JSON stream reader of
  `executeClaudeStreaming`;
* `src/src/handlers/message.ts` — the streaming event loop of `handleMessage`
  (tool notices, text accumulation and flushing, AskUserQuestion rendering
  and deduplication, finalization);
* `src/src/index.ts` — the `app.action` button-click handler
  (pending selections, answer aggregation, submission).

Strings are modelled as Lean `String`/`List Char` (Unicode scalar sequences),
machine timestamps as `Nat`/`Int`.  Fallible or possibly non-terminating code
is `Option`-valued (fuel for the `while` loop of `splitForSlack`).  Network
side effects (Slack posts) are modelled as emission lists in program order.
-/

namespace Bridge

/-- JS falsy `||` on strings: `a || b` where the empty string is falsy. -/
def jsOr (a b : String) : String := if a = "" then b else a

/-- Whitespace as trimmed by JS `String.prototype.trim` (the characters that
occur in this code base's data: space, newline, tab, carriage return). -/
def isWs (c : Char) : Bool := c == ' ' || c == '\n' || c == '\t' || c == '\r'

/-- JS `String.prototype.trim` on a character list: drop whitespace from both
ends. -/
def trimChars (l : List Char) : List Char :=
  ((l.dropWhile isWs).reverse.dropWhile isWs).reverse

/-- `trim` on `String`. -/
def jsTrim (s : String) : String := (trimChars s.data).asString

/-! ## Session registry (`src/src/services/session.ts`)

`SessionStore` models the JSON object `store.sessions`
(`Record<string, SessionMapping>`, key `"channelId:threadTs"`) as an
association list; `storeSet` is JS property assignment. -/

/-- `SessionMapping` from `session.ts` (ISO timestamps modelled as `Nat`). -/
structure SessionMapping where
  sessionId : String
  channelId : String
  threadTs : String
  userId : String
  createdAt : Nat
  lastActivity : Nat
deriving DecidableEq, Repr

/-- The `store.sessions` record as an association list. -/
abbrev SessionStore := List (String × SessionMapping)

/-- `sessionKey` from `session.ts`. -/
def sessionKey (channelId threadTs : String) : String := channelId ++ ":" ++ threadTs

/-- JS object property assignment `store.sessions[key] = v`. -/
def storeSet : SessionStore → String → SessionMapping → SessionStore
  | [], k, v => [(k, v)]
  | (k', v') :: rest, k, v =>
      if k' = k then (k, v) :: rest else (k', v') :: storeSet rest k v

/-- `getOrCreateSession(channelId, threadTs, userId)` from `session.ts`:
look up `channelId:threadTs`; if present, refresh `lastActivity` and return it
with `isNew = false`; otherwise create a mapping with the fresh
`randomUUID()` (passed in as `freshId`) and return it with `isNew = true`.
The synchronous read-modify-write of the JSON file is modelled as a pure
state transition on the store. -/
def getOrCreateSession (store : SessionStore) (channelId threadTs userId : String)
    (freshId : String) (now : Nat) : (SessionMapping × Bool) × SessionStore :=
  let key := sessionKey channelId threadTs
  match store.lookup key with
  | some s =>
      let s' := { s with lastActivity := now }
      ((s', false), storeSet store key s')
  | none =>
      let s : SessionMapping :=
        { sessionId := freshId, channelId := channelId, threadTs := threadTs
          userId := userId, createdAt := now, lastActivity := now }
      ((s, true), storeSet store key s)

/-- A sequence of `getOrCreateSession` calls for one thread: each call gets a
candidate fresh id and a clock value; returns the list of
`(session, isNew)` results and the final store. -/
def resolveCalls (channelId threadTs userId : String) :
    SessionStore → List (String × Nat) → List (SessionMapping × Bool) × SessionStore
  | store, [] => ([], store)
  | store, (fid, now) :: rest =>
      let r := getOrCreateSession store channelId threadTs userId fid now
      let rs := resolveCalls channelId threadTs userId r.2 rest
      (r.1 :: rs.1, rs.2)

/-- `cleanupOldSessions` body: iterate over the entries, delete those with
`lastActivity < cutoff`, count the removals. -/
def cleanupGo (cutoff : Int) : SessionStore → SessionStore × Nat
  | [] => ([], 0)
  | (k, s) :: rest =>
      let r := cleanupGo cutoff rest
      if (s.lastActivity : Int) < cutoff then (r.1, r.2 + 1) else ((k, s) :: r.1, r.2)

/-- `cleanupOldSessions(maxAgeHours)` from `session.ts`:
`cutoff = Date.now() - maxAgeHours*60*60*1000`; sessions whose `lastActivity`
is strictly before the cutoff are deleted; returns the surviving store and
the number removed. -/
def cleanupOldSessions (store : SessionStore) (now : Int) (maxAgeHours : Nat) :
    SessionStore × Nat :=
  cleanupGo (now - (maxAgeHours * 60 * 60 * 1000 : Nat)) store

theorem storeSet_lookup (store : SessionStore) (k : String) (v : SessionMapping) :
    (storeSet store k v).lookup k = some v := by
  induction store with
  | nil => simp [storeSet]
  | cons e rest ih =>
      obtain ⟨k', v'⟩ := e
      by_cases h : k' = k
      · subst h; simp [storeSet, List.lookup]
      · simp only [storeSet, if_neg h, List.lookup]
        have : (k == k') = false := by
          simpa [beq_iff_eq] using fun h' => h h'.symm
        simp [this, ih]

theorem resolveCalls_length (channelId threadTs userId : String)
    (store : SessionStore) (calls : List (String × Nat)) :
    (resolveCalls channelId threadTs userId store calls).1.length = calls.length := by
  induction calls generalizing store with
  | nil => simp [resolveCalls]
  | cons c rest ih => obtain ⟨fid, now⟩ := c; simp [resolveCalls, ih]

theorem resolveCalls_existing (channelId threadTs userId : String)
    (store : SessionStore) (calls : List (String × Nat)) (s : SessionMapping)
    (hs : store.lookup (sessionKey channelId threadTs) = some s) :
    (∀ r ∈ (resolveCalls channelId threadTs userId store calls).1,
        r.2 = false ∧ r.1.sessionId = s.sessionId) ∧
    ((resolveCalls channelId threadTs userId store calls).2.lookup
        (sessionKey channelId threadTs)).map SessionMapping.sessionId
      = some s.sessionId := by
  induction calls generalizing store s with
  | nil => simpa [resolveCalls] using congrArg (Option.map SessionMapping.sessionId) hs
  | cons c rest ih =>
      obtain ⟨fid, now⟩ := c
      have hg : getOrCreateSession store channelId threadTs userId fid now
          = (({ s with lastActivity := now }, false),
             storeSet store (sessionKey channelId threadTs) { s with lastActivity := now }) := by
        simp [getOrCreateSession, hs]
      have hs' : (storeSet store (sessionKey channelId threadTs)
            { s with lastActivity := now }).lookup (sessionKey channelId threadTs)
          = some { s with lastActivity := now } := storeSet_lookup ..
      have := ih (storeSet store (sessionKey channelId threadTs)
        { s with lastActivity := now }) { s with lastActivity := now } hs'
      constructor
      · intro r hr
        simp only [resolveCalls, hg, List.mem_cons] at hr
        rcases hr with hr | hr
        · subst hr; exact ⟨rfl, rfl⟩
        · exact this.1 r hr
      · simpa [resolveCalls, hg] using this.2

/-- C6: for every sequence of `getOrCreateSession` calls with the same
`threadKey` (channel, thread), starting from a store with no mapping for that
key, the first call returns `isNew = true`, every later call returns
`isNew = false`, every call returns the same `sessionId` (the first fresh id),
and the store keeps mapping the key to that `sessionId` after every call. -/
theorem c6_session_uniqueness (channelId threadTs userId : String)
    (store : SessionStore) (first : String × Nat) (rest : List (String × Nat))
    (habs : store.lookup (sessionKey channelId threadTs) = none) :
    ((resolveCalls channelId threadTs userId store (first :: rest)).1.map Prod.snd
        = true :: List.replicate rest.length false) ∧
    (∀ r ∈ (resolveCalls channelId threadTs userId store (first :: rest)).1,
        r.1.sessionId = first.1) ∧
    ((resolveCalls channelId threadTs userId store (first :: rest)).2.lookup
        (sessionKey channelId threadTs)).map SessionMapping.sessionId
      = some first.1 := by
  obtain ⟨fid, now⟩ := first
  have hg : getOrCreateSession store channelId threadTs userId fid now
      = (({ sessionId := fid, channelId := channelId, threadTs := threadTs
            userId := userId, createdAt := now, lastActivity := now }, true),
         storeSet store (sessionKey channelId threadTs)
          { sessionId := fid, channelId := channelId, threadTs := threadTs
            userId := userId, createdAt := now, lastActivity := now }) := by
    simp [getOrCreateSession, habs]
  have hs' := storeSet_lookup store (sessionKey channelId threadTs)
    { sessionId := fid, channelId := channelId, threadTs := threadTs
      userId := userId, createdAt := now, lastActivity := now }
  have hrest := resolveCalls_existing channelId threadTs userId _ rest _ hs'
  refine ⟨?_, ?_, ?_⟩
  · simp only [resolveCalls, hg, List.map_cons]
    congr 1
    have : ∀ r ∈ (resolveCalls channelId threadTs userId _ rest).1, r.2 = false :=
      fun r hr => (hrest.1 r hr).1
    rw [List.eq_replicate_iff]
    refine ⟨?_, ?_⟩
    · simp [resolveCalls_length]
    · intro b hb
      obtain ⟨r, hr, hrb⟩ := List.mem_map.mp hb
      rw [← hrb]; exact this r hr
  · intro r hr
    simp only [resolveCalls, hg, List.mem_cons] at hr
    rcases hr with hr | hr
    · subst hr; rfl
    · exact (hrest.1 r hr).2
  · simpa [resolveCalls, hg] using hrest.2

/-- Witness for C6: two calls for the same thread on an empty store. -/
theorem c6_witness :
    ([] : SessionStore).lookup (sessionKey "C1" "171.5") = none ∧
    (((resolveCalls "C1" "171.5" "U1" [] [("uuid-a", 5), ("uuid-b", 9)]).1.map Prod.snd
        = true :: List.replicate 1 false) ∧
     (∀ r ∈ (resolveCalls "C1" "171.5" "U1" [] [("uuid-a", 5), ("uuid-b", 9)]).1,
        r.1.sessionId = "uuid-a") ∧
     ((resolveCalls "C1" "171.5" "U1" [] [("uuid-a", 5), ("uuid-b", 9)]).2.lookup
        (sessionKey "C1" "171.5")).map SessionMapping.sessionId = some "uuid-a") :=
  ⟨rfl, c6_session_uniqueness "C1" "171.5" "U1" [] ("uuid-a", 5) [("uuid-b", 9)] rfl⟩

/-- C8: `cleanupOldSessions` evicts exactly the sessions whose `lastActivity`
is more than `maxAgeHours` before `now`, retains every other session (in
order), and returns the number of sessions removed. -/
theorem c8_sweep_spec (store : SessionStore) (now : Int) (maxAgeHours : Nat) :
    (cleanupOldSessions store now maxAgeHours).1
      = store.filter (fun e =>
          !decide (now - (e.2.lastActivity : Int) > (maxAgeHours * 60 * 60 * 1000 : Nat))) ∧
    (cleanupOldSessions store now maxAgeHours).2
      = (store.filter (fun e =>
          decide (now - (e.2.lastActivity : Int) > (maxAgeHours * 60 * 60 * 1000 : Nat)))).length := by
  have key : ∀ (M : Int) (st : SessionStore),
      (cleanupGo (now - M) st).1
        = st.filter (fun e => !decide (now - (e.2.lastActivity : Int) > M)) ∧
      (cleanupGo (now - M) st).2
        = (st.filter (fun e => decide (now - (e.2.lastActivity : Int) > M))).length := by
    intro M st
    induction st with
    | nil => simp [cleanupGo]
    | cons e rest ih =>
        obtain ⟨k, s⟩ := e
        by_cases h : (s.lastActivity : Int) < now - M
        · have hb : decide (now - (s.lastActivity : Int) > M) = true :=
            decide_eq_true (by omega)
          simp only [cleanupGo, if_pos h, List.filter_cons, hb, Bool.not_true]
          exact ⟨ih.1, by simp [ih.2]⟩
        · have hb : decide (now - (s.lastActivity : Int) > M) = false := by
            simpa using (by omega : ¬ (now - (s.lastActivity : Int) > M))
          simp only [cleanupGo, if_neg h, List.filter_cons, hb, Bool.not_false]
          exact ⟨by simp [ih.1], ih.2⟩
  exact key _ store

/-! ## `splitForSlack` (`src/lib/markdown-to-slack.ts`, quoted in
`src/docs/DESK_ROUTING.md`)

The `while` loop is embedded with fuel; `none` means the fuel ran out (the
JS loop would still be running).  `jsLastIndexOf` is
`String.prototype.lastIndexOf(pat, fromIndex)`: the largest start index
`≤ fromIndex` of an occurrence of `pat`, or `-1`. -/

/-- Does `pat` occur in `s` starting at index `i`? -/
def isSubAt (pat s : List Char) (i : Nat) : Bool := pat.isPrefixOf (s.drop i)

/-- JS `s.lastIndexOf(pat, fromIndex)` (for non-empty `pat`): the largest
occurrence start index `≤ fromIndex`, else `-1`. -/
def jsLastIndexOf (s pat : List Char) (fromIndex : Nat) : Int :=
  match (List.range (fromIndex + 1)).reverse.find? (fun i => isSubAt pat s i) with
  | some i => (i : Int)
  | none => -1

/-- `splitPoint` after the first reassignment: latest `"\n\n"` at index
≤ `maxLength`, else (if below `maxLength / 2`) the latest `"\n"`.
The JS comparison `splitPoint < maxLength / 2` (exact division) is
`2 * splitPoint < maxLength` over `Int`. -/
def sp2Of (remaining : List Char) (maxLength : Nat) : Int :=
  if 2 * jsLastIndexOf remaining ['\n', '\n'] maxLength < (maxLength : Int) then
    jsLastIndexOf remaining ['\n'] maxLength
  else jsLastIndexOf remaining ['\n', '\n'] maxLength

/-- `splitPoint` after the second reassignment: as `sp2Of`, else (if still
below `maxLength / 2`) the latest `" "`. -/
def sp3Of (remaining : List Char) (maxLength : Nat) : Int :=
  if 2 * sp2Of remaining maxLength < (maxLength : Int) then
    jsLastIndexOf remaining [' '] maxLength
  else sp2Of remaining maxLength

/-- The final split point of one loop iteration of `splitForSlack`: the best
break found, or a hard cut at `maxLength` if every break is below
`maxLength / 2`. -/
def splitPointOf (remaining : List Char) (maxLength : Nat) : Nat :=
  if 2 * sp3Of remaining maxLength < (maxLength : Int) then maxLength
  else (sp3Of remaining maxLength).toNat

/-- The `while (remaining.length > 0)` loop of `splitForSlack`, with fuel. -/
def splitLoop (maxLength : Nat) : Nat → List Char → Option (List (List Char))
  | _, [] => some []
  | 0, _ :: _ => none
  | fuel + 1, remaining =>
      if remaining.length ≤ maxLength then some [remaining]
      else
        let sp := splitPointOf remaining maxLength
        (splitLoop maxLength fuel (trimChars (remaining.drop sp))).map
          (remaining.take sp :: ·)

/-- `splitForSlack(text, maxLength)`: texts that fit are returned whole;
longer texts go through the splitting loop (`text.length` is enough fuel
whenever `maxLength ≥ 1`, see `splitLoop_total`). -/
def splitForSlack (text : List Char) (maxLength : Nat) : Option (List (List Char)) :=
  if text.length ≤ maxLength then some [text] else splitLoop maxLength text.length text

/-- Chunks interleaved with the gap dropped after each chunk:
`interleave [c1, c2] [g1, g2] = c1 ++ g1 ++ c2 ++ g2`. -/
def interleave : List (List Char) → List (List Char) → List Char
  | [], _ => []
  | c :: cs, [] => c ++ interleave cs []
  | c :: cs, g :: gs => c ++ g ++ interleave cs gs

/-- Extend the last gap (used to push trailing trimmed whitespace into the
gap structure). -/
def appendLastGap (q : List Char) : List (List Char) → List (List Char)
  | [] => [q]
  | [g] => [g ++ q]
  | g :: g' :: gs => g :: appendLastGap q (g' :: gs)

theorem jsLastIndexOf_le (s pat : List Char) (fromIndex : Nat) :
    jsLastIndexOf s pat fromIndex ≤ (fromIndex : Int) := by
  unfold jsLastIndexOf
  cases hf : (List.range (fromIndex + 1)).reverse.find? (fun i => isSubAt pat s i) with
  | none => simp; omega
  | some i =>
      have hi : i ∈ (List.range (fromIndex + 1)).reverse := List.mem_of_find?_eq_some hf
      have : i < fromIndex + 1 := by simpa [List.mem_range] using hi
      simpa using Int.ofNat_le.mpr (Nat.lt_succ_iff.mp this)

theorem sp3Of_le (remaining : List Char) (maxLength : Nat) :
    sp3Of remaining maxLength ≤ (maxLength : Int) := by
  unfold sp3Of sp2Of
  split_ifs <;> exact jsLastIndexOf_le ..

theorem splitPointOf_le (remaining : List Char) (maxLength : Nat) :
    splitPointOf remaining maxLength ≤ maxLength := by
  unfold splitPointOf
  split_ifs with h
  · exact le_refl _
  · rw [Int.toNat_le]
    exact sp3Of_le ..

theorem splitPointOf_pos (remaining : List Char) (maxLength : Nat)
    (hm : 1 ≤ maxLength) : 1 ≤ splitPointOf remaining maxLength := by
  unfold splitPointOf
  split_ifs with h
  · exact hm
  · omega

theorem trimChars_length_le (l : List Char) : (trimChars l).length ≤ l.length := by
  unfold trimChars
  calc ((l.dropWhile isWs).reverse.dropWhile isWs).reverse.length
      = ((l.dropWhile isWs).reverse.dropWhile isWs).length := List.length_reverse _
    _ ≤ (l.dropWhile isWs).reverse.length := (List.dropWhile_sublist _).length_le
    _ = (l.dropWhile isWs).length := List.length_reverse _
    _ ≤ l.length := (List.dropWhile_sublist _).length_le

theorem trimChars_decomp (l : List Char) :
    ∃ p q, l = p ++ trimChars l ++ q ∧
      (∀ c ∈ p, isWs c = true) ∧ (∀ c ∈ q, isWs c = true) := by
  refine ⟨l.takeWhile isWs, ((l.dropWhile isWs).reverse.takeWhile isWs).reverse, ?_, ?_, ?_⟩
  · have h2 : l.dropWhile isWs
        = trimChars l ++ ((l.dropWhile isWs).reverse.takeWhile isWs).reverse := by
      calc l.dropWhile isWs = (l.dropWhile isWs).reverse.reverse :=
            (List.reverse_reverse _).symm
        _ = ((l.dropWhile isWs).reverse.takeWhile isWs
              ++ (l.dropWhile isWs).reverse.dropWhile isWs).reverse := by
            rw [List.takeWhile_append_dropWhile]
        _ = trimChars l ++ ((l.dropWhile isWs).reverse.takeWhile isWs).reverse := by
            rw [List.reverse_append]; rfl
    calc l = l.takeWhile isWs ++ l.dropWhile isWs :=
          (List.takeWhile_append_dropWhile ..).symm
      _ = l.takeWhile isWs ++ (trimChars l
            ++ ((l.dropWhile isWs).reverse.takeWhile isWs).reverse) := by rw [← h2]
      _ = l.takeWhile isWs ++ trimChars l
            ++ ((l.dropWhile isWs).reverse.takeWhile isWs).reverse := by
          rw [List.append_assoc]
  · exact fun c hc => List.mem_takeWhile_imp hc
  · intro c hc
    rw [List.mem_reverse] at hc
    exact List.mem_takeWhile_imp hc

theorem appendLastGap_length (q : List Char) (gaps : List (List Char)) (h : gaps ≠ []) :
    (appendLastGap q gaps).length = gaps.length := by
  induction gaps with
  | nil => exact absurd rfl h
  | cons g gs ih =>
      cases gs with
      | nil => rfl
      | cons g' gs' => simpa [appendLastGap] using ih (by simp)

theorem appendLastGap_ws (q : List Char) :
    ∀ (gaps : List (List Char)), (∀ g ∈ gaps, ∀ c ∈ g, isWs c = true) →
      (∀ c ∈ q, isWs c = true) → ∀ g ∈ appendLastGap q gaps, ∀ c ∈ g, isWs c = true
  | [], _, hq => by
      intro g hgmem
      simp only [appendLastGap, List.mem_singleton] at hgmem
      subst hgmem; exact hq
  | [ga], hg, hq => by
      intro gm hgmem
      simp only [appendLastGap, List.mem_singleton] at hgmem
      subst hgmem
      intro c hc
      rcases List.mem_append.mp hc with hc | hc
      · exact hg ga (by simp) c hc
      · exact hq c hc
  | ga :: gb :: gs, hg, hq => by
      intro gm hgmem
      simp only [appendLastGap, List.mem_cons] at hgmem
      rcases hgmem with hgmem | hgmem
      · subst hgmem; exact hg gm (by simp)
      · exact appendLastGap_ws q (gb :: gs)
          (fun x hx => hg x (List.mem_cons_of_mem _ hx)) hq gm
          (by simpa [List.mem_cons] using hgmem)

theorem interleave_append_last (q : List Char) :
    ∀ (cs gaps : List (List Char)), cs.length = gaps.length → cs ≠ [] →
      interleave cs gaps ++ q = interleave cs (appendLastGap q gaps)
  | [], _, _, hne => absurd rfl hne
  | c :: cs, [], hlen, _ => by simp at hlen
  | [c], [g], _, _ => by simp [interleave, appendLastGap]
  | c :: c' :: cs, g :: g' :: gs, hlen, _ => by
      have ih := interleave_append_last q (c' :: cs) (g' :: gs) (by simpa using hlen) (by simp)
      show (c ++ g ++ interleave (c' :: cs) (g' :: gs)) ++ q
          = c ++ g ++ interleave (c' :: cs) (appendLastGap q (g' :: gs))
      rw [List.append_assoc (c ++ g), ih]
  | [c], g :: g' :: gs, hlen, _ => by simp at hlen
  | c :: c' :: cs, [g], hlen, _ => by simp at hlen

theorem appendLastGap_ne_nil (q : List Char) (gaps : List (List Char)) :
    appendLastGap q gaps ≠ [] := by
  match gaps with
  | [] => simp [appendLastGap]
  | [g] => simp [appendLastGap]
  | g :: g' :: gs => simp [appendLastGap]

theorem splitLoop_succ (m fuel : Nat) (rem : List Char) (hne : rem ≠ []) :
    splitLoop m (fuel + 1) rem
      = if rem.length ≤ m then some [rem]
        else (splitLoop m fuel (trimChars (rem.drop (splitPointOf rem m)))).map
          (rem.take (splitPointOf rem m) :: ·) := by
  match rem with
  | [] => exact absurd rfl hne
  | r :: rs => rfl

theorem splitLoop_sound (m : Nat) (hm : 1 ≤ m) :
    ∀ (fuel : Nat) (rem : List Char), rem.length ≤ fuel →
      ∃ chunks gaps, splitLoop m fuel rem = some chunks ∧
        (∀ c ∈ chunks, c ≠ [] ∧ c.length ≤ m) ∧
        gaps.length = chunks.length ∧
        (∀ g ∈ gaps, ∀ ch ∈ g, isWs ch = true) ∧
        rem = interleave chunks gaps := by
  intro fuel
  induction fuel with
  | zero =>
      intro rem hlen
      have hnil : rem = [] := List.eq_nil_of_length_eq_zero (Nat.le_zero.mp hlen)
      subst hnil
      exact ⟨[], [], rfl, by simp, rfl, by simp, rfl⟩
  | succ fuel ih =>
      intro rem hlen
      rcases List.eq_nil_or_concat rem with hnil | _
      · subst hnil
        exact ⟨[], [], rfl, by simp, rfl, by simp, rfl⟩
      rename_i hne0
      have hne : rem ≠ [] := by rcases hne0 with ⟨l, a, rfl⟩; simp
      by_cases hsmall : rem.length ≤ m
      · refine ⟨[rem], [[]], ?_, ?_, rfl, by simp, by simp [interleave]⟩
        · rw [splitLoop_succ m fuel rem hne, if_pos hsmall]
        · intro c hc
          rw [List.mem_singleton] at hc
          subst hc
          exact ⟨hne, hsmall⟩
      · have hsp1 : 1 ≤ splitPointOf rem m := splitPointOf_pos rem m hm
        have hsplen : (trimChars (rem.drop (splitPointOf rem m))).length ≤ fuel := by
          have h1 := trimChars_length_le (rem.drop (splitPointOf rem m))
          have h2 : (rem.drop (splitPointOf rem m)).length
              = rem.length - splitPointOf rem m := List.length_drop ..
          omega
        obtain ⟨chunks', gaps', heq, hchunks', hglen', hws', hinter'⟩ :=
          ih (trimChars (rem.drop (splitPointOf rem m))) hsplen
        obtain ⟨p, q, hdecomp, hp, hq⟩ := trimChars_decomp (rem.drop (splitPointOf rem m))
        have htake_ne : rem.take (splitPointOf rem m) ≠ [] := by
          intro habs
          have := congrArg List.length habs
          rw [List.length_take] at this
          simp only [List.length_nil] at this
          omega
        have htake_le : (rem.take (splitPointOf rem m)).length ≤ m := by
          rw [List.length_take]
          exact le_trans (min_le_left ..) (splitPointOf_le rem m)
        have hrun : splitLoop m (fuel + 1) rem
            = some (rem.take (splitPointOf rem m) :: chunks') := by
          rw [splitLoop_succ m fuel rem hne, if_neg hsmall, heq]
          rfl
        have hchunkprops : ∀ c ∈ rem.take (splitPointOf rem m) :: chunks',
            c ≠ [] ∧ c.length ≤ m := by
          intro c hc
          rcases List.mem_cons.mp hc with hc | hc
          · subst hc; exact ⟨htake_ne, htake_le⟩
          · exact hchunks' c hc
        rcases List.eq_nil_or_concat chunks' with hcnil | hccons
        · subst hcnil
          have hgnil : gaps' = [] := List.eq_nil_of_length_eq_zero (by simpa using hglen')
          subst hgnil
          have htrimnil : trimChars (rem.drop (splitPointOf rem m)) = [] := hinter'
          refine ⟨[rem.take (splitPointOf rem m)], [p ++ q], hrun, hchunkprops, rfl, ?_, ?_⟩
          · intro g hg
            rw [List.mem_singleton] at hg
            subst hg
            intro ch hch
            rcases List.mem_append.mp hch with hch | hch
            · exact hp ch hch
            · exact hq ch hch
          · calc rem = rem.take (splitPointOf rem m) ++ rem.drop (splitPointOf rem m) :=
                  (List.take_append_drop ..).symm
              _ = rem.take (splitPointOf rem m) ++ (p ++ trimChars (rem.drop (splitPointOf rem m)) ++ q) := by
                  rw [← hdecomp]
              _ = rem.take (splitPointOf rem m) ++ (p ++ q) := by rw [htrimnil]; simp
              _ = interleave [rem.take (splitPointOf rem m)] [p ++ q] := by
                  simp [interleave]
        · have hcne : chunks' ≠ [] := by rcases hccons with ⟨l, a, rfl⟩; simp
          refine ⟨rem.take (splitPointOf rem m) :: chunks', p :: appendLastGap q gaps', hrun,
            hchunkprops, ?_, ?_, ?_⟩
          · have hgne : gaps' ≠ [] := by
              intro habs
              rw [habs] at hglen'
              exact hcne (List.eq_nil_of_length_eq_zero (by simpa using hglen'.symm))
            simp [appendLastGap_length q gaps' hgne, hglen']
          · intro g hg
            rcases List.mem_cons.mp hg with hg | hg
            · subst hg; exact hp
            · exact appendLastGap_ws q gaps' hws' hq g hg
          · obtain ⟨c0, cs0, hceq⟩ := List.exists_cons_of_ne_nil hcne
            obtain ⟨g0, gs0, hgeq⟩ := List.exists_cons_of_ne_nil (appendLastGap_ne_nil q gaps')
            have hstep : interleave (rem.take (splitPointOf rem m) :: chunks')
                (p :: appendLastGap q gaps')
                = rem.take (splitPointOf rem m) ++ p
                    ++ interleave chunks' (appendLastGap q gaps') := by
              rw [hceq, hgeq]; rfl
            have hshift : interleave chunks' (appendLastGap q gaps')
                = interleave chunks' gaps' ++ q :=
              (interleave_append_last q chunks' gaps' hglen'.symm hcne).symm
            calc rem = rem.take (splitPointOf rem m) ++ rem.drop (splitPointOf rem m) :=
                  (List.take_append_drop ..).symm
              _ = rem.take (splitPointOf rem m)
                    ++ (p ++ trimChars (rem.drop (splitPointOf rem m)) ++ q) := by
                  rw [← hdecomp]
              _ = rem.take (splitPointOf rem m)
                    ++ (p ++ (interleave chunks' gaps' ++ q)) := by
                  rw [hinter']; simp [List.append_assoc]
              _ = rem.take (splitPointOf rem m) ++ p
                    ++ interleave chunks' (appendLastGap q gaps') := by
                  rw [hshift]; simp [List.append_assoc]
              _ = interleave (rem.take (splitPointOf rem m) :: chunks')
                    (p :: appendLastGap q gaps') := hstep.symm

/-- C4 (amended): for any `maxLength ≥ 1`, `splitForSlack` terminates and
yields chunks each of length at most `maxLength`; the original text is the
in-order interleaving of the chunks with (possibly empty) all-whitespace
gaps that the splitter trims away at chunk boundaries.  Concatenation thus
reproduces the original text only up to this boundary whitespace — nothing
is "inserted", characters of the original are removed
(see `c4_counterexample`). -/
theorem c4_amended (text : List Char) (m : Nat) (hm : 1 ≤ m) :
    ∃ chunks gaps, splitForSlack text m = some chunks ∧
      (∀ c ∈ chunks, c.length ≤ m) ∧
      gaps.length = chunks.length ∧
      (∀ g ∈ gaps, ∀ ch ∈ g, isWs ch = true) ∧
      text = interleave chunks gaps := by
  by_cases h : text.length ≤ m
  · exact ⟨[text], [[]], by simp [splitForSlack, h], by simpa using h, rfl, by simp,
      by simp [interleave]⟩
  · obtain ⟨chunks, gaps, heq, hc, hlen, hws, hint⟩ :=
      splitLoop_sound m hm text.length text le_rfl
    exact ⟨chunks, gaps, by simp [splitForSlack, h, heq], fun c hc' => (hc c hc').2,
      hlen, hws, hint⟩

/-- Witness for C4 (amended) at `"ab cd"`, `maxLength = 3`, together with the
concrete evaluation `splitForSlack "ab cd" 3 = ["ab", "cd"]`. -/
theorem c4_amended_witness :
    1 ≤ 3 ∧
    (∃ chunks gaps, splitForSlack ['a', 'b', ' ', 'c', 'd'] 3 = some chunks ∧
      (∀ c ∈ chunks, c.length ≤ 3) ∧
      gaps.length = chunks.length ∧
      (∀ g ∈ gaps, ∀ ch ∈ g, isWs ch = true) ∧
      ['a', 'b', ' ', 'c', 'd'] = interleave chunks gaps) ∧
    splitForSlack ['a', 'b', ' ', 'c', 'd'] 3 = some [['a', 'b'], ['c', 'd']] :=
  ⟨by decide, c4_amended ['a', 'b', ' ', 'c', 'd'] 3 (by decide), by decide⟩

/-- C10 (amended): for every text and every `maxLength ≥ 1`, `splitForSlack`
terminates (the loop fuel `text.length` is never exhausted), and if the
input is non-empty, every returned chunk is non-empty.  (On the empty input
the function returns the single empty chunk `[""]`, see
`c10_counterexample`.) -/
theorem c10_amended (text : List Char) (m : Nat) (hm : 1 ≤ m) :
    ∃ chunks, splitForSlack text m = some chunks ∧
      (text ≠ [] → ∀ c ∈ chunks, c ≠ []) := by
  by_cases h : text.length ≤ m
  · refine ⟨[text], by simp [splitForSlack, h], fun hne c hc => ?_⟩
    rw [List.mem_singleton] at hc
    subst hc
    exact hne
  · obtain ⟨chunks, gaps, heq, hc, _, _, _⟩ :=
      splitLoop_sound m hm text.length text le_rfl
    exact ⟨chunks, by simp [splitForSlack, h, heq], fun _ c hc' => (hc c hc').1⟩

/-- Counterexample for C10 as stated: on the empty input string,
`splitForSlack "" 1` returns `[""]`, whose single chunk is empty — "every
returned chunk is non-empty" fails for the empty input. -/
theorem c10_counterexample :
    ∃ chunks, splitForSlack [] 1 = some chunks ∧ ¬ (∀ c ∈ chunks, c ≠ []) :=
  ⟨[[]], rfl, by simp⟩

/-- Witness for C10 (amended) at `"abc"`, `maxLength = 2`, with the concrete
evaluation (a hard cut at 2). -/
theorem c10_amended_witness :
    1 ≤ 2 ∧
    (∃ chunks, splitForSlack ['a', 'b', 'c'] 2 = some chunks ∧
      (['a', 'b', 'c'] ≠ [] → ∀ c ∈ chunks, c ≠ [])) ∧
    splitForSlack ['a', 'b', 'c'] 2 = some [['a', 'b'], ['c']] :=
  ⟨by decide, c10_amended ['a', 'b', 'c'] 2 (by decide), by decide⟩

theorem find?_revRange (p : Nat → Bool) :
    ∀ (fr j : Nat), j ≤ fr → p j = true → (∀ i, j < i → i ≤ fr → p i = false) →
      (List.range (fr + 1)).reverse.find? p = some j := by
  intro fr
  induction fr with
  | zero =>
      intro j hj hpj _
      have : j = 0 := Nat.le_zero.mp hj
      subst this
      simp [List.range_succ, hpj]
  | succ n ih =>
      intro j hj hpj hmax
      have hrev : (List.range (n + 2)).reverse = (n + 1) :: (List.range (n + 1)).reverse := by
        rw [List.range_succ, List.reverse_append]
        rfl
      rw [hrev]
      by_cases hje : j = n + 1
      · subst hje
        exact List.find?_cons_of_pos _ hpj
      · have hpn : p (n + 1) = false := hmax (n + 1) (by omega) le_rfl
        rw [List.find?_cons_of_neg _ (by simp [hpn])]
        exact ih j (by omega) hpj (fun i h1 h2 => hmax i h1 (by omega))

theorem jsLastIndexOf_eq (s pat : List Char) (fr j : Nat) (hj : j ≤ fr)
    (hpj : isSubAt pat s j = true)
    (hmax : ∀ i, j < i → i ≤ fr → isSubAt pat s i = false) :
    jsLastIndexOf s pat fr = j := by
  unfold jsLastIndexOf
  rw [find?_revRange _ fr j hj hpj hmax]

theorem jsLastIndexOf_neg (s pat : List Char) (fr : Nat)
    (h : ∀ i, i ≤ fr → isSubAt pat s i = false) :
    jsLastIndexOf s pat fr = -1 := by
  unfold jsLastIndexOf
  have : (List.range (fr + 1)).reverse.find? (fun i => isSubAt pat s i) = none := by
    rw [List.find?_eq_none]
    intro i hi
    have : i ≤ fr := by
      simpa [List.mem_range, Nat.lt_succ_iff] using List.mem_reverse.mp hi
    simp [h i this]
  rw [this]

theorem isSubAt_head_mem {c : Char} {pat s : List Char} {i : Nat}
    (h : isSubAt (c :: pat) s i = true) : c ∈ s := by
  unfold isSubAt at h
  have hpre : (c :: pat) <+: s.drop i := List.isPrefixOf_iff_prefix.mp h
  exact List.mem_of_mem_drop (hpre.subset (by simp))

theorem isSubAt_false_of_head_not_mem {c : Char} (pat s : List Char) (i : Nat)
    (hc : c ∉ s) : isSubAt (c :: pat) s i = false := by
  cases h : isSubAt (c :: pat) s i with
  | false => rfl
  | true => exact absurd (isSubAt_head_mem h) hc

/-- Counterexample for C4 as stated: for the 3502-character text
`"a"*3000 ++ " " ++ "b"*501` (strictly longer than 3500), `splitForSlack`
returns the chunks `["a"*3000, "b"*501]`.  Their concatenation is not the
original text — the interior space was trimmed away, no chunk contains any
whitespace, and no separator was inserted — so no amount of "stripping
inserted separators" can reproduce the original. -/
theorem c4_counterexample :
    splitForSlack (List.replicate 3000 'a' ++ ' ' :: List.replicate 501 'b') 3500
      = some [List.replicate 3000 'a', List.replicate 501 'b'] ∧
    List.replicate 3000 'a' ++ List.replicate 501 'b'
      ≠ List.replicate 3000 'a' ++ ' ' :: List.replicate 501 'b' ∧
    ' ' ∉ List.replicate 3000 'a' ++ List.replicate 501 'b' ∧
    ' ' ∈ List.replicate 3000 'a' ++ ' ' :: List.replicate 501 'b' := by
  have hTlen : (List.replicate 3000 'a' ++ ' ' :: List.replicate 501 'b').length = 3502 := by
    simp only [List.length_append, List.length_cons, List.length_replicate]
  have hTne : List.replicate 3000 'a' ++ ' ' :: List.replicate 501 'b' ≠ [] := by
    intro h
    have h2 := congrArg List.length h
    rw [hTlen, List.length_nil] at h2
    exact absurd h2 (by omega)
  have hnl : '\n' ∉ List.replicate 3000 'a' ++ ' ' :: List.replicate 501 'b' := by
    simp only [List.mem_append, List.mem_cons, List.mem_replicate]
    decide
  have hnn : jsLastIndexOf (List.replicate 3000 'a' ++ ' ' :: List.replicate 501 'b')
      ['\n', '\n'] 3500 = -1 :=
    jsLastIndexOf_neg _ _ _ (fun i _ => isSubAt_false_of_head_not_mem _ _ i hnl)
  have hn1 : jsLastIndexOf (List.replicate 3000 'a' ++ ' ' :: List.replicate 501 'b')
      ['\n'] 3500 = -1 :=
    jsLastIndexOf_neg _ _ _ (fun i _ => isSubAt_false_of_head_not_mem _ _ i hnl)
  have hdrop3000 : (List.replicate 3000 'a' ++ ' ' :: List.replicate 501 'b').drop 3000
      = ' ' :: List.replicate 501 'b' :=
    List.drop_left' (by rw [List.length_replicate])
  have hassoc : List.replicate 3000 'a' ++ ' ' :: List.replicate 501 'b'
      = (List.replicate 3000 'a' ++ [' ']) ++ List.replicate 501 'b' :=
    (List.append_assoc (List.replicate 3000 'a') [' '] (List.replicate 501 'b')).symm
  have hspace : jsLastIndexOf (List.replicate 3000 'a' ++ ' ' :: List.replicate 501 'b')
      [' '] 3500 = 3000 := by
    refine jsLastIndexOf_eq _ _ _ 3000 (by omega) ?_ ?_
    · unfold isSubAt
      rw [hdrop3000]
      rfl
    · intro i h1 h2
      have hi : i = (List.replicate 3000 'a' ++ [' ']).length + (i - 3001) := by
        simp only [List.length_append, List.length_cons, List.length_nil,
          List.length_replicate]
        omega
      have hdropi : (List.replicate 3000 'a' ++ ' ' :: List.replicate 501 'b').drop i
          = List.replicate (501 - (i - 3001)) 'b' := by
        nth_rewrite 1 [hi]
        rw [hassoc, List.drop_append, List.drop_replicate]
      have hcount : 501 - (i - 3001) = (500 - (i - 3001)) + 1 := by omega
      unfold isSubAt
      rw [hdropi, hcount, List.replicate_succ]
      rfl
  have hsp : splitPointOf (List.replicate 3000 'a' ++ ' ' :: List.replicate 501 'b') 3500
      = 3000 := by
    unfold splitPointOf sp3Of sp2Of
    rw [hnn, hn1, hspace]
    decide
  have htake3000 : (List.replicate 3000 'a' ++ ' ' :: List.replicate 501 'b').take 3000
      = List.replicate 3000 'a' :=
    List.take_left' (by rw [List.length_replicate])
  have hb501 : List.replicate 501 'b' = 'b' :: List.replicate 500 'b' := by
    rw [show (501 : Nat) = 500 + 1 by norm_num, List.replicate_succ]
  have hdropB : List.dropWhile isWs (List.replicate 501 'b') = List.replicate 501 'b' := by
    rw [hb501, List.dropWhile_cons_of_neg (by decide), ← hb501]
  have htrim : trimChars (' ' :: List.replicate 501 'b') = List.replicate 501 'b' := by
    unfold trimChars
    rw [List.dropWhile_cons_of_pos (by decide), hdropB, List.reverse_replicate, hdropB,
      List.reverse_replicate]
  have hB_ne : List.replicate 501 'b' ≠ [] := by
    rw [hb501]
    intro h
    exact List.noConfusion h
  have hB_len : (List.replicate 501 'b').length = 501 := List.length_replicate ..
  have hinner : splitLoop 3500 3501 (List.replicate 501 'b')
      = some [List.replicate 501 'b'] := by
    rw [show (3501 : Nat) = 3500 + 1 by norm_num,
      splitLoop_succ 3500 3500 (List.replicate 501 'b') hB_ne,
      if_pos (by rw [hB_len]; omega)]
  refine ⟨?_, ?_, ?_, ?_⟩
  · unfold splitForSlack
    rw [hTlen, if_neg (by omega),
      show (3502 : Nat) = 3501 + 1 by norm_num,
      splitLoop_succ 3500 3501 _ hTne, if_neg (by rw [hTlen]; omega),
      hsp, htake3000, hdrop3000, htrim, hinner]
    rfl
  · intro habs
    have hlen2 := congrArg List.length habs
    simp only [List.length_append, List.length_cons, List.length_replicate] at hlen2
    omega
  · simp only [List.mem_append, List.mem_replicate]
    decide
  · exact List.mem_append_right _ (List.mem_cons_self _ _)

/-! ## `MessageUpdater` (`src/src/services/slack.ts`)

One debounced live message.  `timer` is the single `updateTimer` handle,
holding the absolute fire time `lastUpdateTime + minInterval` of the
scheduled callback (`setTimeout(…, minInterval - timeSinceLastUpdate)` at
time `t` fires at `t + minInterval - (t - lastUpdateTime)`).  `flushes`
records each performed Slack edit (time, text); the edit is assumed to
succeed, and `flush()` on an empty buffer is a no-op, as in the source. -/

structure MessageUpdater where
  pendingText : String
  lastUpdateTime : Nat
  timer : Option Nat
  flushes : List (Nat × String)
deriving DecidableEq, Repr

/-- A fresh `MessageUpdater` (constructor state). -/
def MessageUpdater.init : MessageUpdater := ⟨"", 0, none, []⟩

/-- `flush()` at time `t`. -/
def MessageUpdater.flushAt (u : MessageUpdater) (t : Nat) : MessageUpdater :=
  if u.pendingText = "" then u
  else { u with flushes := u.flushes ++ [(t, u.pendingText)], lastUpdateTime := t }

/-- A due timer fires before the next call is handled: the scheduled
callback runs `flush()` and clears the handle. -/
def MessageUpdater.fireIfDue (u : MessageUpdater) (t : Nat) : MessageUpdater :=
  match u.timer with
  | some tf => if tf ≤ t then { u.flushAt tf with timer := none } else u
  | none => u

/-- `append(text)` at time `t`: append to the buffer; if `minInterval` has
elapsed since the last update, flush immediately; otherwise, if no timer is
pending, schedule the one trailing flush at `lastUpdateTime + minInterval`. -/
def MessageUpdater.appendAt (mi : Nat) (u : MessageUpdater) (t : Nat) (s : String) :
    MessageUpdater :=
  let u1 := u.fireIfDue t
  let u2 := { u1 with pendingText := u1.pendingText ++ s }
  if mi ≤ t - u2.lastUpdateTime then u2.flushAt t
  else if u2.timer = none then { u2 with timer := some (u2.lastUpdateTime + mi) }
  else u2

/-- `setText(text)` at time `t`: replace the buffer; nothing is scheduled or
flushed. -/
def MessageUpdater.setTextAt (u : MessageUpdater) (t : Nat) (s : String) : MessageUpdater :=
  let u1 := u.fireIfDue t
  { u1 with pendingText := s }

/-- A timed call into the updater. -/
inductive UpdaterCall
  | append (s : String)
  | setText (s : String)
deriving DecidableEq, Repr

/-- Run a time-ordered sequence of calls (each preceded by any due timer
firing). -/
def MessageUpdater.run (mi : Nat) : MessageUpdater → List (Nat × UpdaterCall) → MessageUpdater
  | u, [] => u
  | u, (t, .append s) :: rest => MessageUpdater.run mi (u.appendAt mi t s) rest
  | u, (t, .setText s) :: rest => MessageUpdater.run mi (u.setTextAt t s) rest

/-- End of the episode: a still-pending timer eventually fires. -/
def MessageUpdater.settle (u : MessageUpdater) : MessageUpdater :=
  match u.timer with
  | some tf => { u.flushAt tf with timer := none }
  | none => u

/-- Counterexample for C5 as stated: two rapid `append` calls 100 ms apart on
a fresh updater (whose `lastUpdateTime` starts at 0, so the 500 ms interval
has already "elapsed" at the first call) produce TWO flushes — an immediate
one with `"a"` and the trailing debounced one with `"ab"` — not exactly one
flush, and the flushed content is the accumulated buffer `"ab"`, not the
text `"b"` of the last call. -/
theorem c5_counterexample :
    (MessageUpdater.settle (MessageUpdater.run 500 MessageUpdater.init
        [(1000, .append "a"), (1100, .append "b")])).flushes
      = [(1000, "a"), (1500, "ab")] ∧
    ¬ ((MessageUpdater.settle (MessageUpdater.run 500 MessageUpdater.init
        [(1000, .append "a"), (1100, .append "b")])).flushes.map Prod.snd = ["b"]) ∧
    ¬ ((MessageUpdater.settle (MessageUpdater.run 500 MessageUpdater.init
        [(1000, .append "a"), (1100, .append "b")])).flushes.length = 1) := by
  refine ⟨by decide, by decide, by decide⟩

/-- Concatenation of a list of strings (`"".concat` of all elements in
order). -/
def joinAll : List String → String
  | [] => ""
  | s :: rest => s ++ joinAll rest

theorem run_appends_coalesce (mi L : Nat) :
    ∀ (calls : List (Nat × String)) (u : MessageUpdater),
      u.timer = some (L + mi) → u.lastUpdateTime = L →
      (∀ c ∈ calls, L ≤ c.1 ∧ c.1 < L + mi) →
      MessageUpdater.run mi u (calls.map (fun c => (c.1, UpdaterCall.append c.2)))
        = ⟨u.pendingText ++ joinAll (calls.map Prod.snd),
           u.lastUpdateTime, u.timer, u.flushes⟩ := by
  intro calls
  induction calls with
  | nil =>
      intro u _ _ _
      simp [MessageUpdater.run, joinAll]
  | cons c rest ih =>
      intro u htimer hlast hwin
      obtain ⟨t, s⟩ := c
      have hw1 : L ≤ t := (hwin (t, s) (by simp)).1
      have hw2 : t < L + mi := (hwin (t, s) (by simp)).2
      have hfire : u.fireIfDue t = u := by
        unfold MessageUpdater.fireIfDue
        rw [htimer]
        show (if L + mi ≤ t then _ else u) = u
        rw [if_neg (by omega)]
      have hnoflush : ¬ (mi ≤ t - u.lastUpdateTime) := by rw [hlast]; omega
      have htne : ¬ ({ u with pendingText := u.pendingText ++ s }.timer = none) := by
        simp [htimer]
      have hstep : u.appendAt mi t s = { u with pendingText := u.pendingText ++ s } := by
        unfold MessageUpdater.appendAt
        rw [hfire]
        show (if mi ≤ t - u.lastUpdateTime then _ else _) = _
        rw [if_neg hnoflush, if_neg htne]
      calc MessageUpdater.run mi u
            (((t, s) :: rest).map (fun c => (c.1, UpdaterCall.append c.2)))
          = MessageUpdater.run mi (u.appendAt mi t s)
              (rest.map (fun c => (c.1, UpdaterCall.append c.2))) := rfl
        _ = ⟨(u.pendingText ++ s) ++ joinAll (rest.map Prod.snd),
             u.lastUpdateTime, u.timer, u.flushes⟩ := by
            rw [hstep]
            exact ih { u with pendingText := u.pendingText ++ s } htimer hlast
              (fun c hc => hwin c (List.mem_cons_of_mem _ hc))
        _ = ⟨u.pendingText ++ joinAll (((t, s) :: rest).map Prod.snd),
             u.lastUpdateTime, u.timer, u.flushes⟩ := by
            rw [List.map_cons]
            show (⟨(u.pendingText ++ s) ++ joinAll (rest.map Prod.snd),
              u.lastUpdateTime, u.timer, u.flushes⟩ : MessageUpdater)
              = ⟨u.pendingText ++ (s ++ joinAll (rest.map Prod.snd)),
                 u.lastUpdateTime, u.timer, u.flushes⟩
            rw [String.append_assoc]

theorem flushAt_mk (P : String) (L t : Nat) (tm : Option Nat)
    (F : List (Nat × String)) (h : P ≠ "") :
    MessageUpdater.flushAt ⟨P, L, tm, F⟩ t = ⟨P, t, tm, F ++ [(t, P)]⟩ := by
  unfold MessageUpdater.flushAt
  dsimp only
  rw [if_neg h]

theorem settle_mk_some (P : String) (L tf : Nat) (F : List (Nat × String))
    (h : P ≠ "") :
    MessageUpdater.settle ⟨P, L, some tf, F⟩ = ⟨P, tf, none, F ++ [(tf, P)]⟩ := by
  unfold MessageUpdater.settle
  dsimp only
  rw [flushAt_mk P L tf (some tf) F h]

/-- C5 (amended): starting from an updater with no pending timer whose last
flush happened at `lastUpdateTime`, any number `N ≥ 1` of rapid `append`
calls that all arrive strictly within the debounce interval after
`lastUpdateTime` produce exactly one flush: it fires at
`lastUpdateTime + minInterval` and its content is the accumulated buffer —
the prior pending text followed by every appended text in order (`append`
accumulates; only `setText` replaces), not merely the text of the last call.
No second flush is queued and the timer handle ends cleared.  (If the
interval has already elapsed at the first call, that call flushes
immediately first and the rest still coalesce into one trailing flush — see
`c5_counterexample`.) -/
theorem c5_amended (mi : Nat) (u : MessageUpdater)
    (first : Nat × String) (rest : List (Nat × String))
    (htimer : u.timer = none)
    (hwin : ∀ c ∈ first :: rest, u.lastUpdateTime ≤ c.1 ∧ c.1 < u.lastUpdateTime + mi)
    (hcontent : u.pendingText ++ joinAll ((first :: rest).map Prod.snd) ≠ "") :
    (MessageUpdater.settle (MessageUpdater.run mi u
        ((first :: rest).map (fun c => (c.1, UpdaterCall.append c.2))))).flushes
      = u.flushes ++ [(u.lastUpdateTime + mi,
          u.pendingText ++ joinAll ((first :: rest).map Prod.snd))] ∧
    (MessageUpdater.settle (MessageUpdater.run mi u
        ((first :: rest).map (fun c => (c.1, UpdaterCall.append c.2))))).timer = none := by
  obtain ⟨t1, s1⟩ := first
  have hw1 : u.lastUpdateTime ≤ t1 := (hwin (t1, s1) (by simp)).1
  have hw2 : t1 < u.lastUpdateTime + mi := (hwin (t1, s1) (by simp)).2
  have hfire : u.fireIfDue t1 = u := by
    unfold MessageUpdater.fireIfDue
    rw [htimer]
  have hnoflush : ¬ (mi ≤ t1 - u.lastUpdateTime) := by omega
  have hstep : u.appendAt mi t1 s1
      = ⟨u.pendingText ++ s1, u.lastUpdateTime,
         some (u.lastUpdateTime + mi), u.flushes⟩ := by
    unfold MessageUpdater.appendAt
    rw [hfire]
    show (if mi ≤ t1 - u.lastUpdateTime then _ else _) = _
    rw [if_neg hnoflush, if_pos (by rw [htimer])]
  have hrun := run_appends_coalesce mi u.lastUpdateTime rest
    ⟨u.pendingText ++ s1, u.lastUpdateTime, some (u.lastUpdateTime + mi), u.flushes⟩
    rfl rfl (fun c hc => hwin c (List.mem_cons_of_mem _ hc))
  have hfull : MessageUpdater.run mi u
      (((t1, s1) :: rest).map (fun c => (c.1, UpdaterCall.append c.2)))
      = ⟨u.pendingText ++ joinAll (((t1, s1) :: rest).map Prod.snd),
         u.lastUpdateTime, some (u.lastUpdateTime + mi), u.flushes⟩ := by
    calc MessageUpdater.run mi u
          (((t1, s1) :: rest).map (fun c => (c.1, UpdaterCall.append c.2)))
        = MessageUpdater.run mi (u.appendAt mi t1 s1)
            (rest.map (fun c => (c.1, UpdaterCall.append c.2))) := rfl
      _ = ⟨(u.pendingText ++ s1) ++ joinAll (rest.map Prod.snd),
           u.lastUpdateTime, some (u.lastUpdateTime + mi), u.flushes⟩ := by
          rw [hstep]; exact hrun
      _ = ⟨u.pendingText ++ joinAll (((t1, s1) :: rest).map Prod.snd),
           u.lastUpdateTime, some (u.lastUpdateTime + mi), u.flushes⟩ := by
          rw [List.map_cons]
          show (⟨(u.pendingText ++ s1) ++ joinAll (rest.map Prod.snd),
            u.lastUpdateTime, some (u.lastUpdateTime + mi), u.flushes⟩ : MessageUpdater)
            = ⟨u.pendingText ++ (s1 ++ joinAll (rest.map Prod.snd)),
               u.lastUpdateTime, some (u.lastUpdateTime + mi), u.flushes⟩
          rw [String.append_assoc]
  rw [hfull, settle_mk_some _ _ _ _ hcontent]
  exact ⟨rfl, rfl⟩

/-- Witness for C5 (amended): two appends 100 and 200 ms after the last
flush at time 1000 (interval 500 ms) yield the single flush
`(1500, "hab")`. -/
theorem c5_amended_witness :
    ((MessageUpdater.mk "h" 1000 none []).timer = none ∧
     (∀ c ∈ [(1100, "a"), (1200, "b")],
        (MessageUpdater.mk "h" 1000 none []).lastUpdateTime ≤ c.1 ∧
        c.1 < (MessageUpdater.mk "h" 1000 none []).lastUpdateTime + 500) ∧
     (MessageUpdater.mk "h" 1000 none []).pendingText
        ++ joinAll ([((1100 : Nat), "a"), (1200, "b")].map Prod.snd) ≠ "") ∧
    (MessageUpdater.settle (MessageUpdater.run 500 (MessageUpdater.mk "h" 1000 none [])
        ([((1100 : Nat), "a"), (1200, "b")].map
          (fun c => (c.1, UpdaterCall.append c.2))))).flushes
      = (MessageUpdater.mk "h" 1000 none []).flushes
          ++ [((MessageUpdater.mk "h" 1000 none []).lastUpdateTime + 500,
              (MessageUpdater.mk "h" 1000 none []).pendingText
                ++ joinAll ([((1100 : Nat), "a"), (1200, "b")].map Prod.snd))] :=
  ⟨⟨rfl, by decide, by decide⟩,
    (c5_amended 500 (MessageUpdater.mk "h" 1000 none [])
      (1100, "a") [(1200, "b")] rfl (by decide) (by decide)).1⟩

/-! ## Stream reader (`src/src/services/claude.ts`, `executeClaudeStreaming`)

The byte stream is modelled as a list of decoded text chunks (the
`TextDecoder` reassembles code points across chunk boundaries).  `JSON.parse`
with its `catch` is an abstract total function `parse : List Char → Option E`;
`none` is a parse failure (the line is logged and skipped, never fatal). -/

/-- `const lines = buffer.split('\n'); buffer = lines.pop() || ''` — the
complete lines and the trailing partial line. -/
def jsSplitPop : List Char → List (List Char) × List Char
  | [] => ([], [])
  | c :: rest =>
      let r := jsSplitPop rest
      if c = '\n' then (([] : List Char) :: r.1, r.2)
      else
        match r.1 with
        | [] => ([], c :: r.2)
        | h :: t => ((c :: h) :: t, r.2)

/-- One complete line's contribution: blank lines (`if (!line.trim()) continue`)
are skipped before parsing; a line that fails to parse yields nothing. -/
def lineEvents {E : Type} (parse : List Char → Option E) (line : List Char) : Option E :=
  if trimChars line = [] then none else parse line

/-- The read loop of `executeClaudeStreaming`: append each chunk to `buffer`,
split off the complete lines, yield their events in order, keep the partial
line; at end-of-stream parse the remaining buffer if it is not blank and
discard it silently otherwise. -/
def streamEvents {E : Type} (parse : List Char → Option E) :
    List Char → List (List Char) → List E
  | buffer, [] => (lineEvents parse buffer).toList
  | buffer, chunk :: chunks =>
      (jsSplitPop (buffer ++ chunk)).1.filterMap (lineEvents parse)
        ++ streamEvents parse (jsSplitPop (buffer ++ chunk)).2 chunks

theorem jsSplitPop_no_nl (l : List Char) (h : '\n' ∉ l) : jsSplitPop l = ([], l) := by
  induction l with
  | nil => rfl
  | cons c rest ih =>
      have hc : ¬ (c = '\n') := fun hc => h (hc ▸ List.mem_cons_self ..)
      have hrest : '\n' ∉ rest := fun hm => h (List.mem_cons_of_mem _ hm)
      unfold jsSplitPop
      rw [ih hrest]
      simp [hc]

theorem jsSplitPop_snd_no_nl (l : List Char) : '\n' ∉ (jsSplitPop l).2 := by
  induction l with
  | nil => simp [jsSplitPop]
  | cons c rest ih =>
      unfold jsSplitPop
      by_cases hc : c = '\n'
      · simpa [hc] using ih
      · cases hr : (jsSplitPop rest).1 with
        | nil =>
            simp only [if_neg hc, hr]
            intro hm
            rcases List.mem_cons.mp hm with hm | hm
            · exact hc hm.symm
            · exact ih hm
        | cons h t => simpa [hc, hr] using ih

theorem jsSplitPop_cons_nl (rest : List Char) :
    jsSplitPop ('\n' :: rest) = ([] :: (jsSplitPop rest).1, (jsSplitPop rest).2) := rfl

theorem jsSplitPop_cons_nonl_nil (c : Char) (rest : List Char) (hc : ¬ c = '\n')
    (h : (jsSplitPop rest).1 = []) :
    jsSplitPop (c :: rest) = ([], c :: (jsSplitPop rest).2) := by
  simp only [jsSplitPop]
  rw [if_neg hc, h]

theorem jsSplitPop_cons_nonl_cons (c : Char) (rest : List Char) (hc : ¬ c = '\n')
    (h0 : List Char) (t : List (List Char)) (h : (jsSplitPop rest).1 = h0 :: t) :
    jsSplitPop (c :: rest) = ((c :: h0) :: t, (jsSplitPop rest).2) := by
  simp only [jsSplitPop]
  rw [if_neg hc, h]

theorem jsSplitPop_append (a b : List Char) :
    jsSplitPop (a ++ b)
      = ((jsSplitPop a).1 ++ (jsSplitPop ((jsSplitPop a).2 ++ b)).1,
         (jsSplitPop ((jsSplitPop a).2 ++ b)).2) := by
  induction a with
  | nil => simp [jsSplitPop]
  | cons c a' ih =>
      by_cases hc : c = '\n'
      · subst hc
        simp only [List.cons_append, jsSplitPop_cons_nl, ih]
      · cases hA : (jsSplitPop a').1 with
        | nil =>
            have hsnd : (jsSplitPop (a' ++ b)).2
                = (jsSplitPop ((jsSplitPop a').2 ++ b)).2 := by rw [ih]
            have hfst : (jsSplitPop (a' ++ b)).1
                = (jsSplitPop ((jsSplitPop a').2 ++ b)).1 := by
              rw [ih]; dsimp only; rw [hA, List.nil_append]
            have e2 : jsSplitPop (c :: a') = ([], c :: (jsSplitPop a').2) :=
              jsSplitPop_cons_nonl_nil c a' hc hA
            cases hX : (jsSplitPop ((jsSplitPop a').2 ++ b)).1 with
            | nil =>
                have e1 : jsSplitPop (c :: (a' ++ b))
                    = ([], c :: (jsSplitPop (a' ++ b)).2) :=
                  jsSplitPop_cons_nonl_nil c (a' ++ b) hc (by rw [hfst, hX])
                have e3 : jsSplitPop (c :: ((jsSplitPop a').2 ++ b))
                    = ([], c :: (jsSplitPop ((jsSplitPop a').2 ++ b)).2) :=
                  jsSplitPop_cons_nonl_nil c _ hc hX
                simp only [List.cons_append, e1, e2]
                simp only [List.cons_append, e3]
                rw [hsnd]
                simp
            | cons h0 t =>
                have e1 : jsSplitPop (c :: (a' ++ b))
                    = ((c :: h0) :: t, (jsSplitPop (a' ++ b)).2) :=
                  jsSplitPop_cons_nonl_cons c (a' ++ b) hc h0 t (by rw [hfst, hX])
                have e3 : jsSplitPop (c :: ((jsSplitPop a').2 ++ b))
                    = ((c :: h0) :: t, (jsSplitPop ((jsSplitPop a').2 ++ b)).2) :=
                  jsSplitPop_cons_nonl_cons c _ hc h0 t hX
                simp only [List.cons_append, e1, e2]
                simp only [List.cons_append, e3]
                rw [hsnd]
                simp
        | cons h0 t =>
            have hsnd : (jsSplitPop (a' ++ b)).2
                = (jsSplitPop ((jsSplitPop a').2 ++ b)).2 := by rw [ih]
            have hfst : (jsSplitPop (a' ++ b)).1
                = h0 :: (t ++ (jsSplitPop ((jsSplitPop a').2 ++ b)).1) := by
              rw [ih]; dsimp only; rw [hA, List.cons_append]
            have e2 : jsSplitPop (c :: a') = ((c :: h0) :: t, (jsSplitPop a').2) :=
              jsSplitPop_cons_nonl_cons c a' hc h0 t hA
            have e1 : jsSplitPop (c :: (a' ++ b))
                = ((c :: h0) :: (t ++ (jsSplitPop ((jsSplitPop a').2 ++ b)).1),
                   (jsSplitPop (a' ++ b)).2) :=
              jsSplitPop_cons_nonl_cons c (a' ++ b) hc h0 _ hfst
            simp only [List.cons_append, e1, e2]
            rw [hsnd]

theorem lineEvents_eq_parse {E : Type} (parse : List Char → Option E)
    (hws : ∀ l, trimChars l = [] → parse l = none) (l : List Char) :
    lineEvents parse l = parse l := by
  unfold lineEvents
  by_cases h : trimChars l = []
  · rw [if_pos h, hws l h]
  · rw [if_neg h]

/-- C9: the stream reader yields exactly the events of the lines of the whole
decoded input that parse successfully, in input order, independently of how
the input was sliced into chunks; a line that fails to parse contributes no
event (and, being modelled totally, never aborts the stream), and the
trailing partial line at end-of-stream is yielded as a final event exactly
when it parses, and silently discarded otherwise.  The hypothesis states
that blank (whitespace-only) text is never a valid event, true of
`JSON.parse`, so the reader's blank-line skip drops no event. -/
theorem c9_stream_parse {E : Type} (parse : List Char → Option E)
    (hws : ∀ l, trimChars l = [] → parse l = none) (chunks : List (List Char)) :
    streamEvents parse [] chunks
      = ((jsSplitPop chunks.flatten).1 ++ [(jsSplitPop chunks.flatten).2]).filterMap
          parse := by
  have key : ∀ (cs : List (List Char)) (buffer : List Char), '\n' ∉ buffer →
      streamEvents parse buffer cs
        = ((jsSplitPop (buffer ++ cs.flatten)).1
            ++ [(jsSplitPop (buffer ++ cs.flatten)).2]).filterMap parse := by
    intro cs
    induction cs with
    | nil =>
        intro buffer hb
        show (lineEvents parse buffer).toList = _
        rw [List.flatten_nil, List.append_nil, jsSplitPop_no_nl buffer hb]
        rw [lineEvents_eq_parse parse hws]
        cases hpb : parse buffer <;> simp [hpb]
    | cons c cs' ih =>
        intro buffer hb
        show (jsSplitPop (buffer ++ c)).1.filterMap (lineEvents parse)
            ++ streamEvents parse (jsSplitPop (buffer ++ c)).2 cs' = _
        rw [ih (jsSplitPop (buffer ++ c)).2 (jsSplitPop_snd_no_nl _)]
        have hassoc : buffer ++ (c :: cs').flatten = (buffer ++ c) ++ cs'.flatten := by
          rw [List.flatten_cons, ← List.append_assoc]
        rw [hassoc, jsSplitPop_append (buffer ++ c) cs'.flatten]
        have hline : ∀ (l : List (List Char)),
            l.filterMap (lineEvents parse) = l.filterMap parse := by
          intro l
          induction l with
          | nil => rfl
          | cons x xs ihx => simp [List.filterMap_cons, lineEvents_eq_parse parse hws, ihx]
        rw [hline]
        simp [List.filterMap_append]
  simpa using key chunks [] (by simp)

/-- A concrete toy event parser for the C9 witness: `"ev1"` and `"ev2"` are
the only valid events. -/
def parseTiny (l : List Char) : Option Nat :=
  if l = ['e', 'v', '1'] then some 1 else if l = ['e', 'v', '2'] then some 2 else none

theorem parseTiny_ws (l : List Char) (h : trimChars l = []) : parseTiny l = none := by
  unfold parseTiny
  by_cases h1 : l = ['e', 'v', '1']
  · subst h1; exact absurd h (by decide)
  · by_cases h2 : l = ['e', 'v', '2']
    · subst h2; exact absurd h (by decide)
    · rw [if_neg h1, if_neg h2]

/-- Witness for C9: the stream `"ev" · "1\nx\nev2"` yields `[1, 2]` — the
chunk boundary inside `"ev1"` is healed, the unparseable line `"x"` is
skipped, and the trailing partial line `"ev2"` is parsed at end-of-stream. -/
theorem c9_witness :
    streamEvents parseTiny [] [['e', 'v'], ['1', '\n', 'x', '\n', 'e', 'v', '2']]
      = ((jsSplitPop [['e', 'v'], ['1', '\n', 'x', '\n', 'e', 'v', '2']].flatten).1
          ++ [(jsSplitPop [['e', 'v'], ['1', '\n', 'x', '\n', 'e', 'v', '2']].flatten).2]).filterMap
            parseTiny ∧
    ((jsSplitPop [['e', 'v'], ['1', '\n', 'x', '\n', 'e', 'v', '2']].flatten).1
          ++ [(jsSplitPop [['e', 'v'], ['1', '\n', 'x', '\n', 'e', 'v', '2']].flatten).2]).filterMap
            parseTiny = [1, 2] :=
  ⟨c9_stream_parse parseTiny parseTiny_ws _, by decide⟩

/-! ## `handleMessage` streaming loop (`src/src/handlers/message.ts`)

The `for await` body, restricted to its visible Slack emissions: tool-activity
notices, AskUserQuestion prompt renderings, flushes of accumulated
prior-turn text, and the finalization post.  Presentation transforms
(`markdownToSlack`, `stripSystemReminders`, and the finalize-time
`splitForSlack` of over-long text, modelled separately) are applied
pointwise to a post's text and do not affect which posts happen or their
order, so emissions carry the raw text.  Status-message edits
("Processing…", "Completed in Xs") and emoji reactions are not modelled: no
claim concerns them. -/

/-- One question of an `AskUserQuestion` tool input. -/
structure Question where
  question : String
  header : Option String
  options : List String
deriving DecidableEq, Repr

/-- A content block of an assistant event (`ContentBlock` in
`services/claude.ts`, with the `name`/`input.questions` fields the handler
reads off tool-use blocks). -/
structure CBlock where
  type : String
  text : Option String
  content : Option String
  name : Option String
  questions : Option (List Question)
deriving DecidableEq, Repr

/-- A plain text block. -/
def textBlock (s : String) : CBlock := ⟨"text", some s, none, none, none⟩

/-- A generic tool-use block. -/
def toolUseBlock (n : String) : CBlock := ⟨"tool_use", none, none, some n, none⟩

/-- An `AskUserQuestion` tool-use block carrying its questions input. -/
def askBlock (qs : List Question) : CBlock :=
  ⟨"tool_use", none, none, some "AskUserQuestion", some qs⟩

/-- The stream events the handler dispatches on (`StreamEvent.type`). -/
inductive SEvent
  | assistant (content : List CBlock)
  | user
  | result (res : Option String) (costUsd : Option Nat)
  | other
deriving DecidableEq, Repr

/-- `extractText` from `services/claude.ts`:
`content.map(b => b.text || b.content || '').join('').trim()`. -/
def extractText (content : List CBlock) : String :=
  jsTrim (joinAll (content.map fun b => jsOr (b.text.getD "") (b.content.getD "")))

/-- A visible Slack emission of the handler, in program order. -/
inductive Emit
  | toolNotice (name : String)
  | promptRender (questions : List Question)
  | textPost (s : String)
  | finalPost (s : String)
deriving DecidableEq, Repr

/-- The loop-local mutable state of `handleMessage`. -/
structure HState where
  currentTurnText : String
  lastEventWasTool : Bool
  askedQuestions : Bool
deriving DecidableEq, Repr

/-- State at loop entry. -/
def initHState : HState := ⟨"", false, false⟩

/-- The `for (const tool of uniqueToolBlocks)` posting loop: an
`AskUserQuestion` block with a `questions` input renders the button prompt
and sets `askedQuestions` (then `continue`s); any other block posts a
tool-activity notice derived from its name (`tool.name || 'Tool'`). -/
def toolLoop : List CBlock → Bool → List Emit × Bool
  | [], asked => ([], asked)
  | b :: rest, asked =>
      if jsOr (b.name.getD "") "Tool" == "AskUserQuestion" && b.questions.isSome then
        let r := toolLoop rest true
        (Emit.promptRender (b.questions.getD []) :: r.1, r.2)
      else
        let r := toolLoop rest asked
        (Emit.toolNotice (jsOr (b.name.getD "") "Tool") :: r.1, r.2)

/-- One iteration of the `for await` event loop (message.ts lines 181–333):
classify the blocks of an assistant event, post tool notices (with the
stream-wide `AskUserQuestion` dedup filter), then handle text — flushing the
previously accumulated text if the preceding boundary was a tool — and track
`user` (tool-result) events as boundaries and the `result` event's final
text. -/
def stepEmits (s : HState) (e : SEvent) : HState × List Emit :=
  match e with
  | .assistant content =>
      let toolBlocks := content.filter (fun b => b.type == "tool_use")
      let newText := if toolBlocks.isEmpty && !s.askedQuestions then extractText content
        else ""
      let uniqueToolBlocks := toolBlocks.filter (fun b =>
        !(jsOr (b.name.getD "") "unknown" == "AskUserQuestion" && s.askedQuestions))
      let lp := toolLoop uniqueToolBlocks s.askedQuestions
      let flushEmits := if newText != "" && s.lastEventWasTool && s.currentTurnText != ""
        then [Emit.textPost s.currentTurnText] else []
      let cur' := if newText != "" then newText else s.currentTurnText
      let lastTool' := if !toolBlocks.isEmpty then true
        else if newText != "" then false else s.lastEventWasTool
      (⟨cur', lastTool', lp.2⟩, lp.1 ++ flushEmits)
  | .user => (⟨s.currentTurnText, true, s.askedQuestions⟩, [])
  | .result res _ =>
      if res.getD "" != "" && s.currentTurnText == ""
      then (⟨res.getD "", s.lastEventWasTool, s.askedQuestions⟩, [])
      else (s, [])
  | .other => (s, [])

/-- Fold the event loop over a stream, collecting emissions in order. -/
def runStream : HState → List SEvent → HState × List Emit
  | s, [] => (s, [])
  | s, e :: rest =>
      let r := stepEmits s e
      let r2 := runStream r.1 rest
      (r2.1, r.2 ++ r2.2)

/-- Finalization (message.ts lines 336–368): when a prompt was rendered the
handler waits for answers and posts nothing; otherwise the final text
(`currentTurnText || updater.getText()`, and the updater's buffer is empty
on this path — `setText` is only called on the error path) is posted if
non-empty. -/
def finalizeEmits (s : HState) : List Emit :=
  if s.askedQuestions then []
  else if s.currentTurnText != "" then [Emit.finalPost s.currentTurnText] else []

/-- All visible emissions of one invocation, in order. -/
def handlerTrace (events : List SEvent) : List Emit :=
  (runStream initHState events).2 ++ finalizeEmits (runStream initHState events).1

/-- `occursBefore tr a b`: some occurrence of `a` strictly precedes some
occurrence of `b` in `tr`. -/
def occursBefore : List Emit → Emit → Emit → Bool
  | [], _, _ => false
  | e :: rest, a, b => (e == a && rest.contains b) || occursBefore rest a b

/-- Counterexample for C1 as stated: for the stream
`[text "A", tool "Bash", text "B"]`, the handler posts the tool notice
FIRST, then flushes `"A"` (only when the next text event `"B"` arrives), and
finally posts `"B"` — the message containing A is never emitted before T's
tool-activity notice. -/
theorem c1_counterexample :
    handlerTrace [.assistant [textBlock "A"], .assistant [toolUseBlock "Bash"],
        .assistant [textBlock "B"]]
      = [.toolNotice "Bash", .textPost "A", .finalPost "B"] ∧
    occursBefore (handlerTrace [.assistant [textBlock "A"],
        .assistant [toolUseBlock "Bash"], .assistant [textBlock "B"]])
      (.textPost "A") (.toolNotice "Bash") = false ∧
    occursBefore (handlerTrace [.assistant [textBlock "A"],
        .assistant [toolUseBlock "Bash"], .assistant [textBlock "B"]])
      (.toolNotice "Bash") (.textPost "A") = true := by
  refine ⟨by decide, by decide, by decide⟩

theorem jsOr_empty (a : String) : jsOr a "" = a := by
  unfold jsOr
  split_ifs with h
  · exact h.symm
  · rfl

theorem jsOr_of_ne_empty (a b : String) (h : a ≠ "") : jsOr a b = a := by
  unfold jsOr
  rw [if_neg h]

theorem extractText_single (A : String) :
    extractText [⟨"text", some A, none, none, none⟩] = jsTrim A := by
  unfold extractText
  simp [joinAll, jsOr_empty]

/-- C1 (amended): for a stream `[text A, tool T, text B]` (A, B non-blank, T
a generic tool), the handler emits exactly
`[T's tool-activity notice, A, B]`: the pending text A is NOT flushed before
the tool notice — it is posted only when the next text event B arrives — and
B is emitted at finalization.  Text order (A before B) is preserved, but the
notice precedes A rather than following it. -/
theorem c1_amended (A B tname : String)
    (hA : jsTrim A ≠ "") (hB : jsTrim B ≠ "")
    (hname : tname ≠ "AskUserQuestion") (hname2 : tname ≠ "") :
    handlerTrace [.assistant [textBlock A], .assistant [toolUseBlock tname],
        .assistant [textBlock B]]
      = [.toolNotice tname, .textPost (jsTrim A), .finalPost (jsTrim B)] := by
  have e1 : stepEmits initHState (.assistant [textBlock A])
      = (⟨jsTrim A, false, false⟩, []) := by
    simp [stepEmits, initHState, textBlock, extractText_single, toolLoop, hA]
  have e2 : stepEmits ⟨jsTrim A, false, false⟩ (.assistant [toolUseBlock tname])
      = (⟨jsTrim A, true, false⟩, [.toolNotice tname]) := by
    simp [stepEmits, toolUseBlock, toolLoop, jsOr_of_ne_empty tname "Tool" hname2]
  have e3 : stepEmits ⟨jsTrim A, true, false⟩ (.assistant [textBlock B])
      = (⟨jsTrim B, false, false⟩, [.textPost (jsTrim A)]) := by
    simp [stepEmits, textBlock, extractText_single, toolLoop, hA, hB]
  simp [handlerTrace, runStream, e1, e2, e3, finalizeEmits, hB]

/-- Witness for C1 (amended) at `A = "A"`, `B = "B"`, `T = "Bash"`. -/
theorem c1_amended_witness :
    (jsTrim "A" ≠ "" ∧ jsTrim "B" ≠ "" ∧ "Bash" ≠ "AskUserQuestion" ∧ "Bash" ≠ "") ∧
    handlerTrace [.assistant [textBlock "A"], .assistant [toolUseBlock "Bash"],
        .assistant [textBlock "B"]]
      = [.toolNotice "Bash", .textPost (jsTrim "A"), .finalPost (jsTrim "B")] :=
  ⟨⟨by decide, by decide, by decide, by decide⟩,
    c1_amended "A" "B" "Bash" (by decide) (by decide) (by decide) (by decide)⟩

/-- Is this emission a choice-prompt rendering? -/
def isPromptRender : Emit → Bool
  | .promptRender _ => true
  | _ => false

theorem toolLoop_asked_true (blocks : List CBlock) :
    (toolLoop blocks true).2 = true := by
  induction blocks with
  | nil => rfl
  | cons b rest ih =>
      unfold toolLoop
      split_ifs <;> simpa using ih

theorem toolLoop_render_asked (blocks : List CBlock) (asked : Bool)
    (h : (toolLoop blocks asked).1.any isPromptRender = true) :
    (toolLoop blocks asked).2 = true := by
  induction blocks generalizing asked with
  | nil => simp [toolLoop] at h
  | cons b rest ih =>
      unfold toolLoop at h ⊢
      split_ifs at h ⊢ with hcond
      · exact toolLoop_asked_true rest
      · simp only [List.any_cons] at h
        have : isPromptRender (Emit.toolNotice (jsOr (b.name.getD "") "Tool")) = false := rfl
        rw [this] at h
        simp only [Bool.false_or] at h
        exact ih asked h

theorem toolLoop_no_ask_no_render (blocks : List CBlock) (asked : Bool)
    (h : ∀ b ∈ blocks, jsOr (b.name.getD "") "Tool" ≠ "AskUserQuestion") :
    ∀ em ∈ (toolLoop blocks asked).1, isPromptRender em = false := by
  induction blocks generalizing asked with
  | nil => simp [toolLoop]
  | cons b rest ih =>
      unfold toolLoop
      rw [if_neg (by
        simp only [Bool.and_eq_true, beq_iff_eq]
        exact fun hx => h b (by simp) hx.1)]
      intro em hem
      rcases List.mem_cons.mp hem with hem | hem
      · subst hem; rfl
      · exact ih asked (fun x hx => h x (List.mem_cons_of_mem _ hx)) em hem

theorem jsOr_default_ask (x : String) (d d' : String)
    (hd : d ≠ "AskUserQuestion") (hd' : d' ≠ "AskUserQuestion") :
    jsOr x d = "AskUserQuestion" ↔ jsOr x d' = "AskUserQuestion" := by
  unfold jsOr
  split_ifs <;> simp [hd, hd']

theorem stepEmits_asked_mono (s : HState) (e : SEvent)
    (h : s.askedQuestions = true) : (stepEmits s e).1.askedQuestions = true := by
  cases e with
  | assistant content =>
      simp only [stepEmits]
      rw [h]
      exact toolLoop_asked_true _
  | user => exact h
  | result res cost =>
      simp only [stepEmits]
      split_ifs <;> exact h
  | other => exact h

theorem stepEmits_render_asked (s : HState) (e : SEvent)
    (h : (stepEmits s e).2.any isPromptRender = true) :
    (stepEmits s e).1.askedQuestions = true := by
  cases e with
  | assistant content =>
      simp only [stepEmits, List.any_append] at h ⊢
      rcases Bool.or_eq_true_iff.mp h with h | h
      · exact toolLoop_render_asked _ _ h
      · exfalso
        revert h
        split_ifs <;> simp [isPromptRender]
  | user => simp [stepEmits] at h
  | result res cost =>
      exfalso
      revert h
      simp only [stepEmits]
      split_ifs <;> simp
  | other => simp [stepEmits] at h

theorem stepEmits_asked_no_render (s : HState) (e : SEvent)
    (h : s.askedQuestions = true) :
    ∀ em ∈ (stepEmits s e).2, isPromptRender em = false := by
  cases e with
  | assistant content =>
      intro em hem
      simp only [stepEmits, List.mem_append] at hem
      rcases hem with hem | hem
      · refine toolLoop_no_ask_no_render _ _ ?_ em hem
        intro b hb
        have hb' := List.of_mem_filter hb
        rw [h] at hb'
        simp only [Bool.and_true, Bool.not_eq_true', beq_eq_false_iff_ne] at hb'
        intro habs
        exact hb' ((jsOr_default_ask (b.name.getD "") "Tool" "unknown"
          (by decide) (by decide)).mp habs)
      · revert hem
        split_ifs <;> intro hem <;>
          first
            | (rw [List.mem_singleton] at hem; subst hem; rfl)
            | simp at hem
  | user => simp [stepEmits]
  | result res cost =>
      intro em hem
      exfalso
      revert hem
      simp only [stepEmits]
      split_ifs <;> simp
  | other => simp [stepEmits]

theorem runStream_asked_no_render (s : HState) (es : List SEvent)
    (h : s.askedQuestions = true) :
    ∀ em ∈ (runStream s es).2, isPromptRender em = false := by
  induction es generalizing s with
  | nil => simp [runStream]
  | cons e rest ih =>
      intro em hem
      simp only [runStream, List.mem_append] at hem
      rcases hem with hem | hem
      · exact stepEmits_asked_no_render s e h em hem
      · exact ih (stepEmits s e).1 (stepEmits_asked_mono s e h) em hem

/-- C7: within one stream, once an event has rendered the choice prompt, no
subsequent event of that stream renders it again: if the event `e`
(arriving after the prefix `es1` of the stream) emits a prompt rendering,
then the whole remainder `es2` of the stream emits none, and the
`askedQuestions` suppression flag — local to this invocation of
`handleMessage`, hence scoped to the stream, not the thread — is set and
stays set. -/
theorem c7_prompt_dedup (es1 es2 : List SEvent) (e : SEvent)
    (hrender : (stepEmits (runStream initHState es1).1 e).2.any isPromptRender = true) :
    (stepEmits (runStream initHState es1).1 e).1.askedQuestions = true ∧
    ∀ em ∈ (runStream (stepEmits (runStream initHState es1).1 e).1 es2).2,
      isPromptRender em = false := by
  have hasked := stepEmits_render_asked _ _ hrender
  exact ⟨hasked, runStream_asked_no_render _ _ hasked⟩

/-- Witness for C7: the same one-question `AskUserQuestion` invocation
observed in two consecutive assistant events renders once; the second event
emits nothing. -/
theorem c7_witness :
    ((stepEmits (runStream initHState []).1
        (.assistant [askBlock [⟨"Proceed?", none, ["Yes"]⟩]])).2.any isPromptRender
      = true) ∧
    ((stepEmits (runStream initHState []).1
        (.assistant [askBlock [⟨"Proceed?", none, ["Yes"]⟩]])).1.askedQuestions = true ∧
     ∀ em ∈ (runStream (stepEmits (runStream initHState []).1
          (.assistant [askBlock [⟨"Proceed?", none, ["Yes"]⟩]])).1
        [.assistant [askBlock [⟨"Proceed?", none, ["Yes"]⟩]]]).2,
       isPromptRender em = false) :=
  ⟨by decide, c7_prompt_dedup [] [.assistant [askBlock [⟨"Proceed?", none, ["Yes"]⟩]]]
    (.assistant [askBlock [⟨"Proceed?", none, ["Yes"]⟩]]) (by decide)⟩

/-! ## `AskUserQuestion` rendering (`message.ts` 212–257) and the button
click handler (`index.ts` `app.action`, lines 176–292)

A rendered Slack block is a section, a divider, or an actions row of buttons
`(action_id, label text, value)`.  The `Date.now()` suffix of each
`action_id` is omitted: it only disambiguates Slack action ids and is never
inspected (the handler matches `app.action(/.*/)`).  JS string operations
(`match`, `startsWith`, `sort`) are modelled on the underlying character
lists; default `Array.sort` is lexicographic by code unit, which for the
strings involved coincides with the character-wise order `lexLe` (ties are
impossible among distinct pending selections, so the sort result is unique
and the algorithm irrelevant). -/

/-- A rendered Slack block. -/
inductive SlackBlockM
  | sectionB (text : String)
  | divider
  | actions (buttons : List (String × String × String))
deriving DecidableEq, Repr

/-- One option button of question `qi` (0-based): label shown, value
`"Q{qi+1}: {label}"`. -/
def askButton (qi oi : Nat) (label : String) : String × String × String :=
  ("askq_" ++ toString qi ++ "_" ++ toString oi, label,
   "Q" ++ toString (qi + 1) ++ ": " ++ label)

/-- The per-question blocks: header section, option buttons, and a divider
between questions. -/
def questionBlocks (questionCount : Nat) : Nat → List Question → List SlackBlockM
  | _, [] => []
  | qi, q :: rest =>
      SlackBlockM.sectionB ("*" ++ jsOr (q.header.getD "") ("Question " ++ toString (qi + 1))
          ++ ":* " ++ q.question)
        :: SlackBlockM.actions (q.options.mapIdx (fun oi label => askButton qi oi label))
        :: ((if qi < questionCount - 1 then [SlackBlockM.divider] else [])
            ++ questionBlocks questionCount (qi + 1) rest)

/-- The full `AskUserQuestion` rendering: question blocks, plus — only when
there is more than one question — a divider, a hint, and a Submit button
carrying `"__SUBMIT_ANSWERS__"`. -/
def renderQuestionBlocks (questions : List Question) : List SlackBlockM :=
  questionBlocks questions.length 0 questions
    ++ (if questions.length > 1 then
          [SlackBlockM.divider,
           SlackBlockM.sectionB "_Select your answers above, then click Submit._",
           SlackBlockM.actions [("ask_submit", "Submit Answers", "__SUBMIT_ANSWERS__")]]
        else [])

/-- All button values of a block list. -/
def blockValues : List SlackBlockM → List String
  | [] => []
  | SlackBlockM.actions btns :: rest => btns.map (fun b => b.2.2) ++ blockValues rest
  | _ :: rest => blockValues rest

/-- `value.match(/^Q\d+: /)`: `'Q'`, one or more digits, `':'`, `' '`. -/
def matchesQSelChars : List Char → Bool
  | 'Q' :: rest =>
      let ds := rest.takeWhile Char.isDigit
      !ds.isEmpty &&
        (match rest.drop ds.length with
         | ':' :: ' ' :: _ => true
         | _ => false)
  | _ => false

/-- The `/^Q\d+: /` selection-value test on a `String`. -/
def matchesQSel (v : String) : Bool := matchesQSelChars v.data

/-- Group 1 of `value.match(/^(Q\d+):/)`: `"Q"` plus the leading digits. -/
def qNumChars : List Char → List Char
  | 'Q' :: rest => 'Q' :: rest.takeWhile Char.isDigit
  | _ => []

/-- JS `s.startsWith(pre)`. -/
def jsStartsWith (s pre : String) : Bool := pre.data.isPrefixOf s.data

/-- Character-wise (code point) lexicographic `≤` — the order of the JS
default `Array.sort` comparator on the strings involved. -/
def lexLe : List Char → List Char → Bool
  | [], _ => true
  | _ :: _, [] => false
  | a :: as, b :: bs =>
      if a.toNat < b.toNat then true
      else if b.toNat < a.toNat then false
      else lexLe as bs

/-- `≤` on strings, as compared by `selections.sort()`. -/
def strLe (a b : String) : Bool := lexLe a.data b.data

/-- `selections.sort()`: the unique `strLe`-sorted permutation. -/
def jsSortStrings (l : List String) : List String :=
  List.insertionSort (fun a b => strLe a b = true) l

/-- `selections.sort().join('\n')`, or the placeholder when nothing was
selected. -/
def answersTextOf (selections : List String) : String :=
  if selections.length > 0 then String.intercalate "\n" (jsSortStrings selections)
  else "No selections made"

/-- What one button click does (`index.ts` lines 191–287). -/
inductive ClickOutcome
  | selection
  | submit (answersText : String)
  | generic (value : String)
deriving DecidableEq, Repr

/-- The `app.action` button-click handler for one thread: on a
`/^Q\d+: /`-shaped value, record the selection (replacing any previous
selection for the same `qNum` prefix) and return — the message's buttons are
re-highlighted but remain clickable, and nothing further happens; on
`"__SUBMIT_ANSWERS__"`, aggregate, clear the thread's pending selections and
re-inject the answers as a new inbound message; on any other value,
re-inject the value itself.  Returns the outcome and the new
`pendingSelections` state for the thread. -/
def handleButtonClick (selections : List String) (value : String) :
    ClickOutcome × List String :=
  if matchesQSel value then
    let qNum := (qNumChars value.data).asString
    (ClickOutcome.selection,
     selections.filter (fun s => !jsStartsWith s (qNum ++ ":")) ++ [value])
  else if value = "__SUBMIT_ANSWERS__" then
    (ClickOutcome.submit (answersTextOf selections), [])
  else
    (ClickOutcome.generic value, selections)

/-- The inbound conversational message a click outcome synthesizes via
`handleMessage`, if any: a selection synthesizes nothing. -/
def synthesizedMessage : ClickOutcome → Option String
  | .selection => none
  | .submit t => some t
  | .generic v => some v

/-- C2, evaluated on the code at the failing input: a rendered
single-question prompt (`"Deploy to production?"`, options Yes/No) has no
submit control at all, every one of its button values matches `/^Q\d+: /`,
and a click on `"Q1: Yes"` takes the selection-recording branch: it records
the selection and synthesizes NO inbound message — implicit submission never
happens, the thread keeps waiting.  The unreachable "Simple single-question
button" branch of `index.ts` (which would synthesize) shows the intent the
code misses. -/
theorem c2_code_evaluation :
    (∀ v ∈ blockValues (renderQuestionBlocks
        [⟨"Deploy to production?", none, ["Yes", "No"]⟩]),
      v ≠ "__SUBMIT_ANSWERS__" ∧ matchesQSel v = true) ∧
    blockValues (renderQuestionBlocks [⟨"Deploy to production?", none, ["Yes", "No"]⟩])
      = ["Q1: Yes", "Q1: No"] ∧
    handleButtonClick [] "Q1: Yes" = (ClickOutcome.selection, ["Q1: Yes"]) ∧
    synthesizedMessage (handleButtonClick [] "Q1: Yes").1 = none := by
  refine ⟨by decide, by decide, by decide, by decide⟩

/-- `"Q{q}: {label}"` — the value carried by an option button of the
question with 1-based index `q`. -/
def clickValue (q : Nat) (label : String) : String :=
  "Q" ++ toString q ++ ": " ++ label

/-- Apply a sequence of option clicks (question index, chosen label) to an
initially empty pending-selection state. -/
def applyClicks (clicks : List (Nat × String)) : List String :=
  clicks.foldl (fun sels c => (handleButtonClick sels (clickValue c.1 c.2)).2) []

/-- The label of the last click for question `q` (`""` if `q` was never
clicked — only used for answered questions). -/
def lastLabel (clicks : List (Nat × String)) (q : Nat) : String :=
  (((clicks.filter (fun c => c.1 = q)).getLast?).map Prod.snd).getD ""

/-- Counterexample for C3 as stated: with questions 2 and 10 answered
(`"Q2: a"`, then `"Q10: b"`), submission aggregates via the default
lexicographic `selections.sort()`, which puts `"Q10: b"` BEFORE `"Q2: a"`
(`'1' < '2'`): the entry for question 10 precedes the entry for question 2,
so the aggregate is not ordered by ascending question index. -/
theorem c3_counterexample :
    handleButtonClick (applyClicks [(2, "a"), (10, "b")]) "__SUBMIT_ANSWERS__"
      = (ClickOutcome.submit "Q10: b\nQ2: a", []) ∧
    applyClicks [(2, "a"), (10, "b")] = ["Q2: a", "Q10: b"] ∧
    "Q10: b\nQ2: a" ≠ "Q2: a\nQ10: b" := by
  refine ⟨by decide, by decide, by decide⟩

theorem lexLe_total : ∀ a b : List Char, lexLe a b = true ∨ lexLe b a = true
  | [], _ => Or.inl rfl
  | _ :: _, [] => Or.inr rfl
  | a :: as, b :: bs => by
      by_cases h1 : a.toNat < b.toNat
      · left; simp [lexLe, h1]
      · by_cases h2 : b.toNat < a.toNat
        · right; simp [lexLe, h2, h1]
        · rcases lexLe_total as bs with h | h
          · left; simp [lexLe, h1, h2, h]
          · right; simp [lexLe, h1, h2, h]

theorem lexLe_trans : ∀ a b c : List Char,
    lexLe a b = true → lexLe b c = true → lexLe a c = true
  | [], _, _, _, _ => rfl
  | a :: as, [], c, hab, _ => by simp [lexLe] at hab
  | a :: as, b :: bs, [], _, hbc => by simp [lexLe] at hbc
  | a :: as, b :: bs, c :: cs, hab, hbc => by
      simp only [lexLe] at hab hbc ⊢
      by_cases h1 : a.toNat < b.toNat
      · by_cases h2 : b.toNat < c.toNat
        · rw [if_pos (by omega)]
        · by_cases h2' : c.toNat < b.toNat
          · rw [if_neg h2, if_pos h2'] at hbc
            exact absurd hbc (by simp)
          · rw [if_pos (by omega)]
      · by_cases h1' : b.toNat < a.toNat
        · rw [if_neg h1, if_pos h1'] at hab
          exact absurd hab (by simp)
        · rw [if_neg h1, if_neg h1'] at hab
          by_cases h2 : b.toNat < c.toNat
          · rw [if_pos (by omega)]
          · by_cases h2' : c.toNat < b.toNat
            · rw [if_neg h2, if_pos h2'] at hbc
              exact absurd hbc (by simp)
            · rw [if_neg h2, if_neg h2'] at hbc
              rw [if_neg (by omega), if_neg (by omega)]
              exact lexLe_trans as bs cs hab hbc

theorem lexLe_antisymm : ∀ a b : List Char,
    lexLe a b = true → lexLe b a = true → a = b
  | [], [], _, _ => rfl
  | [], _ :: _, _, hba => by simp [lexLe] at hba
  | _ :: _, [], hab, _ => by simp [lexLe] at hab
  | a :: as, b :: bs, hab, hba => by
      simp only [lexLe] at hab hba
      by_cases h1 : a.toNat < b.toNat
      · rw [if_neg (Nat.lt_asymm h1), if_pos h1] at hba
        exact absurd hba (by simp)
      · by_cases h2 : b.toNat < a.toNat
        · rw [if_neg h1, if_pos h2] at hab
          exact absurd hab (by simp)
        · rw [if_neg h1, if_neg h2] at hab
          rw [if_neg h2, if_neg h1] at hba
          have he : a.toNat = b.toNat := by omega
          have hc : a = b := Char.ext (UInt32.toNat.inj he)
          rw [hc, lexLe_antisymm as bs hab hba]

instance : IsTotal String (fun a b => strLe a b = true) :=
  ⟨fun a b => lexLe_total a.data b.data⟩

instance : IsTrans String (fun a b => strLe a b = true) :=
  ⟨fun a b c => lexLe_trans a.data b.data c.data⟩

instance : IsAntisymm String (fun a b => strLe a b = true) := by
  constructor
  intro a b hab hba
  exact String.ext (lexLe_antisymm a.data b.data hab hba)

theorem dedup_concat (q : Nat) : ∀ ms : List Nat,
    (ms ++ [q]).dedup = ms.dedup.filter (fun x => x != q) ++ [q]
  | [] => by simp
  | m :: ms => by
      by_cases hmq : m = q
      · subst hmq
        rw [List.cons_append, List.dedup_cons_of_mem (by simp)]
        rw [dedup_concat m ms]
        by_cases hm : m ∈ ms
        · rw [List.dedup_cons_of_mem hm]
        · rw [List.dedup_cons_of_not_mem hm, List.filter_cons_of_neg (by simp)]
      · rw [List.cons_append]
        by_cases hm : m ∈ ms
        · rw [List.dedup_cons_of_mem (by simp [hm]), List.dedup_cons_of_mem hm,
            dedup_concat q ms]
        · have hm' : m ∉ ms ++ [q] := by
            simp only [List.mem_append, List.mem_singleton]
            rintro (h | h)
            · exact hm h
            · exact hmq h
          rw [List.dedup_cons_of_not_mem hm', List.dedup_cons_of_not_mem hm,
            dedup_concat q ms, List.filter_cons_of_pos (by simp [hmq]),
            List.cons_append]

theorem handleButtonClick_click (q : Nat) (l : String) (sels : List String)
    (h1 : 1 ≤ q) (h2 : q ≤ 9) :
    handleButtonClick sels (clickValue q l)
      = (ClickOutcome.selection,
         sels.filter (fun s => !jsStartsWith s ("Q" ++ toString q ++ ":"))
           ++ [clickValue q l]) := by
  interval_cases q <;> rfl

theorem startsWith_clickValue (q q' : Nat) (l : String)
    (h1 : 1 ≤ q) (h2 : q ≤ 9) (h1' : 1 ≤ q') (h2' : q' ≤ 9) :
    jsStartsWith (clickValue q' l) ("Q" ++ toString q ++ ":") = (q' == q) := by
  interval_cases q <;> interval_cases q' <;> rfl

theorem applyClicks_eq (clicks : List (Nat × String))
    (hq : ∀ c ∈ clicks, 1 ≤ c.1 ∧ c.1 ≤ 9) :
    applyClicks clicks
      = ((clicks.map Prod.fst).dedup).map
          (fun q => clickValue q (lastLabel clicks q)) := by
  induction clicks using List.reverseRecOn with
  | nil => rfl
  | append_singleton cs c ih =>
      obtain ⟨q, l⟩ := c
      have hq' : ∀ x ∈ cs, 1 ≤ x.1 ∧ x.1 ≤ 9 :=
        fun x hx => hq x (List.mem_append_left _ hx)
      have hqq := hq (q, l) (List.mem_append_right _ (by simp))
      have hstep : applyClicks (cs ++ [(q, l)])
          = (handleButtonClick (applyClicks cs) (clickValue q l)).2 := by
        unfold applyClicks
        rw [List.foldl_append]
        rfl
      rw [hstep, handleButtonClick_click q l _ hqq.1 hqq.2, ih hq']
      dsimp only
      rw [List.filter_map]
      have hfilter : ((cs.map Prod.fst).dedup).filter
          ((fun s => !jsStartsWith s ("Q" ++ toString q ++ ":")) ∘
            (fun q' => clickValue q' (lastLabel cs q')))
          = ((cs.map Prod.fst).dedup).filter (fun x => x != q) := by
        apply List.filter_congr
        intro x hx
        have hxb : 1 ≤ x ∧ x ≤ 9 := by
          obtain ⟨c', hc', hfst⟩ := List.mem_map.mp (List.mem_dedup.mp hx)
          exact hfst ▸ hq' c' hc'
        show (!jsStartsWith (clickValue x (lastLabel cs x)) ("Q" ++ toString q ++ ":"))
            = (x != q)
        rw [startsWith_clickValue q x _ hqq.1 hqq.2 hxb.1 hxb.2]
        rfl
      rw [hfilter]
      have hmap : (cs ++ [(q, l)]).map Prod.fst = cs.map Prod.fst ++ [q] := by simp
      rw [hmap, dedup_concat q (cs.map Prod.fst), List.map_append]
      congr 1
      · apply List.map_congr_left
        intro x hx
        have hxne : x ≠ q := by simpa using List.of_mem_filter hx
        have hfe : List.filter (fun c => decide (c.1 = x)) (cs ++ [(q, l)])
            = List.filter (fun c => decide (c.1 = x)) cs := by
          rw [List.filter_append]
          have : List.filter (fun c => decide (c.1 = x)) [(q, l)] = [] := by
            simp [Ne.symm hxne]
          rw [this, List.append_nil]
        unfold lastLabel
        rw [hfe]
      · simp only [List.map_cons, List.map_nil]
        have hlast : lastLabel (cs ++ [(q, l)]) q = l := by
          unfold lastLabel
          rw [List.filter_append]
          have : List.filter (fun c => decide (c.1 = q)) [(q, l)] = [(q, l)] := by simp
          rw [this, List.getLast?_concat]
          rfl
        rw [hlast]

theorem clickValue_le (q q' : Nat) (x y : String) (h1 : 1 ≤ q) (h2 : q ≤ 9)
    (h1' : 1 ≤ q') (h2' : q' ≤ 9) (hlt : q < q') :
    strLe (clickValue q x) (clickValue q' y) = true := by
  interval_cases q <;> interval_cases q' <;> first | omega | rfl

theorem jsSort_applyClicks (clicks : List (Nat × String))
    (hq : ∀ c ∈ clicks, 1 ≤ c.1 ∧ c.1 ≤ 9) :
    jsSortStrings (applyClicks clicks)
      = ((List.range' 1 9).filter (fun q => (clicks.map Prod.fst).contains q)).map
          (fun q => clickValue q (lastLabel clicks q)) := by
  have hlist : List.range' 1 9 = [1, 2, 3, 4, 5, 6, 7, 8, 9] := rfl
  have hDbounds : ∀ x ∈ (clicks.map Prod.fst).dedup, 1 ≤ x ∧ x ≤ 9 := by
    intro x hx
    obtain ⟨c', hc', hfst⟩ := List.mem_map.mp (List.mem_dedup.mp hx)
    exact hfst ▸ hq c' hc'
  have hperm : List.Perm ((clicks.map Prod.fst).dedup)
      ((List.range' 1 9).filter (fun q => (clicks.map Prod.fst).contains q)) := by
    refine (List.perm_ext_iff_of_nodup (List.nodup_dedup _)
      (List.Nodup.filter _ (by rw [hlist]; decide))).mpr ?_
    intro a
    constructor
    · intro ha
      have hb := hDbounds a ha
      refine List.mem_filter.mpr ⟨?_, by simpa using List.mem_dedup.mp ha⟩
      rw [hlist]
      have h1 := hb.1
      have h2 := hb.2
      interval_cases a <;> decide
    · intro ha
      obtain ⟨_, hcont⟩ := List.mem_filter.mp ha
      exact List.mem_dedup.mpr (by simpa using hcont)
  have hpermS : List.Perm (applyClicks clicks)
      (((List.range' 1 9).filter (fun q => (clicks.map Prod.fst).contains q)).map
        (fun q => clickValue q (lastLabel clicks q))) := by
    rw [applyClicks_eq clicks hq]
    exact hperm.map _
  have hRbounds : ∀ x ∈ (List.range' 1 9).filter
      (fun q => (clicks.map Prod.fst).contains q), 1 ≤ x ∧ x ≤ 9 := by
    intro x hx
    have hm := (List.mem_filter.mp hx).1
    rw [hlist] at hm
    simp only [List.mem_cons, List.mem_singleton, List.not_mem_nil, or_false] at hm
    rcases hm with h | h | h | h | h | h | h | h | h <;> omega
  have hsorted2 : List.Sorted (fun a b => strLe a b = true)
      (((List.range' 1 9).filter (fun q => (clicks.map Prod.fst).contains q)).map
        (fun q => clickValue q (lastLabel clicks q))) := by
    have hplt : List.Pairwise (· < ·)
        ((List.range' 1 9).filter (fun q => (clicks.map Prod.fst).contains q)) :=
      List.Pairwise.filter _ (by rw [hlist]; decide)
    refine List.pairwise_map.mpr ?_
    refine List.Pairwise.imp_of_mem ?_ hplt
    intro a b ha hb hab
    have hba := hRbounds a ha
    have hbb := hRbounds b hb
    exact clickValue_le a b _ _ hba.1 hba.2 hbb.1 hbb.2 hab
  exact List.eq_of_perm_of_sorted
    ((List.perm_insertionSort _ _).trans hpermS)
    (List.sorted_insertionSort _ _) hsorted2

/-- C3 (amended): for prompts with at most 9 questions (single-digit 1-based
question indices — forced by `c3_counterexample`, where question 10 sorts
before question 2 under the code's lexicographic `selections.sort()`) and
any non-empty sequence of selections, including re-selections, submission
yields an aggregated answer with exactly one entry per answered question,
ordered by ascending question index, each entry carrying the latest
selection for that question, and the thread's pending-selection state is
cleared. -/
theorem c3_amended (clicks : List (Nat × String)) (hne : clicks ≠ [])
    (hq : ∀ c ∈ clicks, 1 ≤ c.1 ∧ c.1 ≤ 9) :
    handleButtonClick (applyClicks clicks) "__SUBMIT_ANSWERS__"
      = (ClickOutcome.submit (String.intercalate "\n"
          (((List.range' 1 9).filter (fun q => (clicks.map Prod.fst).contains q)).map
            (fun q => clickValue q (lastLabel clicks q)))), []) := by
  have hlen : (applyClicks clicks).length > 0 := by
    rw [applyClicks_eq clicks hq, List.length_map]
    refine List.length_pos.mpr ?_
    rw [Ne, List.dedup_eq_nil]
    simp [hne]
  unfold handleButtonClick
  rw [if_neg (by decide), if_pos rfl]
  unfold answersTextOf
  rw [if_pos hlen, jsSort_applyClicks clicks hq]

/-- Witness for C3 (amended): selecting "x" for question 2, "y" for
question 1, then re-selecting "z" for question 2 and submitting yields
exactly `"Q1: y\nQ2: z"` — one entry per answered question, ascending by
question index, latest selection per question — and clears the state. -/
theorem c3_amended_witness :
    ([((2 : Nat), "x"), (1, "y"), (2, "z")] ≠ [] ∧
     (∀ c ∈ [((2 : Nat), "x"), (1, "y"), (2, "z")], 1 ≤ c.1 ∧ c.1 ≤ 9)) ∧
    handleButtonClick (applyClicks [((2 : Nat), "x"), (1, "y"), (2, "z")])
        "__SUBMIT_ANSWERS__"
      = (ClickOutcome.submit (String.intercalate "\n"
          (((List.range' 1 9).filter
              (fun q => ([((2 : Nat), "x"), (1, "y"), (2, "z")].map Prod.fst).contains q)).map
            (fun q => clickValue q (lastLabel [((2 : Nat), "x"), (1, "y"), (2, "z")] q)))),
         []) ∧
    String.intercalate "\n"
        (((List.range' 1 9).filter
            (fun q => ([((2 : Nat), "x"), (1, "y"), (2, "z")].map Prod.fst).contains q)).map
          (fun q => clickValue q (lastLabel [((2 : Nat), "x"), (1, "y"), (2, "z")] q)))
      = "Q1: y\nQ2: z" :=
  ⟨⟨by decide, by decide⟩, c3_amended _ (by decide) (by decide), by decide⟩

end Bridge
